import Mathlib

/-!
# nikandfor/ex — `book` package

A shallow embedding of `book/book.go`: the fixed-point scalar `Rat`, the
`Order` record, the `Book` with its two ordered side structures, and the
operations `Trade` and `Cancel`, followed by theorems about them.

Orders are referenced through pointers in the source and mutated in place.
Here a side structure holds order values, and an operation returns the new
book together with the values the caller can observe through its pointers.
-/

namespace book

/-! ## Fixed-point scalar (`Rat int64 // *1e9`) -/

/-- Two's-complement reduction of an integer to the signed 64-bit range. -/
def wrap (x : Int) : Int :=
  (x + 9223372036854775808) % 18446744073709551616 - 9223372036854775808

/-- The scalar type: `Rat int64`, carried as an integer; the machine
operations below reduce their results with `wrap`. Signatures and record
fields are written with the carrier `Int` itself, so that linear arithmetic
applies to them directly. -/
abbrev Rat := Int

/-- Source: `Price = Rat`. -/
abbrev Price := Rat
/-- Source: `Amount = Rat`. -/
abbrev Amount := Rat

/-- A value is representable as an `int64`. -/
def Rat.InRange (r : Int) : Prop :=
  -9223372036854775808 ≤ r ∧ r < 9223372036854775808

instance (r : Int) : Decidable (Rat.InRange r) := by
  unfold Rat.InRange; infer_instance

/-- Source: `Div = 1e9`. -/
def Div : Int := 1000000000
/-- Source: `Zero = Rat(0)`. -/
def Zero : Int := 0
/-- Source: `One = 1 * Div`. -/
def One : Int := 1 * Div

/-- Go `a + b` on `int64`. -/
def Rat.add (a b : Int) : Int := wrap (a + b)
/-- Go `a - b` on `int64`. -/
def Rat.sub (a b : Int) : Int := wrap (a - b)

/-- Source: `func (r Rat) Mul(b Rat) Rat`: `r /= 1e5; b /= 1e4; return r * b`, with
Go's division truncating toward zero and the product wrapping. -/
def Rat.Mul (r b : Int) : Int :=
  wrap (Int.tdiv r 100000 * Int.tdiv b 10000)

/-! ## Orders and the book -/

/-- Source: `OrderType bool` with `Ask = false`, `Bid = true`. -/
inductive OrderType where
  | Ask
  | Bid
  deriving DecidableEq, Repr

/-- The `Order` struct. The field `Type` of the source is `Typ` here. -/
structure Order where
  ID : Nat
  Typ : OrderType
  Price : Int
  Amount : Int
  Filled : Int
  Money : Int
  deriving DecidableEq, Repr

/-- The comparison given to `skiplist.NewRepeated` for `asks`:
`a.Price > b.Price`. -/
def asksLess (a b : Order) : Bool := decide (a.Price > b.Price)

/-- The comparison given to `skiplist.NewRepeated` for `bids`:
`a.Price < b.Price`. -/
def bidsLess (a b : Order) : Bool := decide (a.Price < b.Price)

/-- Modelled from the spec: the ordered side structure (package `skiplist`
is an external dependency). `insert(order)` of the side-structure contract:
the order is placed in ranking order, after every entry it does not rank
before, so equal-priced entries stay in insertion order. The structure is
carried as the list of its entries in iteration order (`First`, `Next`). -/
def Put (less : Order → Order → Bool) : List Order → Order → List Order
  | [], o => [o]
  | x :: xs, o => if less o x then o :: x :: xs else x :: Put less xs o

/-- Modelled from the spec: `removeIf(order, predicate)` of the
side-structure contract: skip the entries ranking before `order`, then scan
the entries at that price for one satisfying the predicate; remove and
return it, or return "not found" with the structure unchanged. -/
def DelIf (less : Order → Order → Bool) :
    List Order → Order → (Order → Bool) → Option Order × List Order
  | [], _, _ => (none, [])
  | x :: xs, o, p =>
    if less x o then
      ((DelIf less xs o p).1, x :: (DelIf less xs o p).2)
    else if less o x then (none, x :: xs)
    else if p x then (some x, xs)
    else ((DelIf less xs o p).1, x :: (DelIf less xs o p).2)

/-- The `Book` struct: the entries of `bids` and `asks` in iteration order,
and `last`. -/
structure Book where
  bids : List Order
  asks : List Order
  last : Int
  deriving DecidableEq, Repr

/-- Source: `func New() *Book`. -/
def New : Book := { bids := [], asks := [], last := 0 }

/-- The `break` test of the loop in `Trade`: for an Ask `cur.Price >
o.Price`, for a Bid `cur.Price < o.Price`. -/
def stops (o cur : Order) : Bool :=
  if o.Typ = OrderType.Ask then decide (cur.Price > o.Price)
  else decide (cur.Price < o.Price)

/-- The test `o.Amount-o.Filled > cur.Amount-cur.Filled` of `Trade`. -/
def exceeds (o cur : Order) : Bool :=
  decide (Rat.sub o.Amount o.Filled > Rat.sub cur.Amount cur.Filled)

/-- The value of `dialAmount` in one iteration of `Trade`. -/
def dialAmount (o cur : Order) : Int :=
  if exceeds o cur then Rat.sub cur.Amount cur.Filled
  else Rat.sub o.Amount o.Filled

/-- Source: `o.Filled += dialAmount; o.Money += money` (the same update is applied
to `cur`). -/
def Order.credit (x : Order) (dial money : Int) : Order :=
  { x with Filled := Rat.add x.Filled dial, Money := Rat.add x.Money money }

/-- State at the exit of the loop of `Trade`. -/
structure LoopResult where
  /-- the incoming order -/
  o : Order
  /-- contents of the `fill` side -/
  fill : List Order
  /-- the orders appended to `updated` (without its first element `o`) -/
  touched : List Order
  /-- the value of `b.last` -/
  last : Int
  deriving DecidableEq, Repr

/-- The loop `for e := fill.First(); e != nil && o.Filled < o.Amount;
e = e.Next()` of `Trade`. The list argument is the chain of entries from
the cursor `e` on. The call `fill.Del(cur)` is `remove(order)` of the
side-structure contract of the spec: it removes the entry under the cursor,
and the iteration goes on with its successor. An entry that is not deleted
stays in place with its updated fields. -/
def tradeLoop (o : Order) (last : Int) : List Order → LoopResult
  | [] => { o := o, fill := [], touched := [], last := last }
  | cur :: rest =>
    if ¬ (o.Filled < o.Amount) then
      { o := o, fill := cur :: rest, touched := [], last := last }
    else if stops o cur then
      { o := o, fill := cur :: rest, touched := [], last := last }
    else
      let dial := dialAmount o cur
      let money := Rat.Mul dial cur.Price
      let cur1 := cur.credit dial money
      let r := tradeLoop (o.credit dial money) cur.Price rest
      { o := r.o
        fill := if exceeds o cur then r.fill else cur1 :: r.fill
        touched := cur1 :: r.touched
        last := r.last }

/-- Result of `Trade`: the returned slice (`none` for `nil`), the incoming
order as the caller sees it afterwards, and the book. -/
structure TradeResult where
  updated : Option (List Order)
  o : Order
  book : Book
  deriving DecidableEq, Repr

/-- Source: `func (b *Book) Trade(o *Order) []*Order`. -/
def Book.Trade (b : Book) (o : Order) : TradeResult :=
  if o.Typ = OrderType.Ask then
    let r := tradeLoop o b.last b.bids
    let asks := if r.o.Filled < r.o.Amount then Put asksLess b.asks r.o else b.asks
    { updated := if r.touched.length + 1 ≠ 1 then some (r.o :: r.touched) else none
      o := r.o
      book := { bids := r.fill, asks := asks, last := r.last } }
  else
    let r := tradeLoop o b.last b.asks
    let bids := if r.o.Filled < r.o.Amount then Put bidsLess b.bids r.o else b.bids
    { updated := if r.touched.length + 1 ≠ 1 then some (r.o :: r.touched) else none
      o := r.o
      book := { bids := bids, asks := r.fill, last := r.last } }

/-- Result of `Cancel`: the returned order (`none` for `nil`) and the
book. -/
structure CancelResult where
  removed : Option Order
  book : Book
  deriving DecidableEq, Repr

/-- Source: `func (b *Book) Cancel(o *Order) *Order`. -/
def Book.Cancel (b : Book) (o : Order) : CancelResult :=
  if o.Typ = OrderType.Ask then
    let r := DelIf asksLess b.asks o (fun cur => decide (cur.ID = o.ID))
    { removed := r.1, book := { b with asks := r.2 } }
  else
    let r := DelIf bidsLess b.bids o (fun cur => decide (cur.ID = o.ID))
    { removed := r.1, book := { b with bids := r.2 } }

/-! ## Queries -/

/-- Source: `func (b *Book) MiddlePrice() Price`. The division `/2` of Go
truncates toward zero. -/
def Book.MiddlePrice (b : Book) : Int :=
  let hi : Int := match b.bids with
    | [] => 0
    | cur :: _ => cur.Price
  let lo : Int := match b.asks with
    | [] => hi
    | cur :: _ => cur.Price
  let hi1 : Int := if hi = 0 then lo else hi
  Rat.add (Int.tdiv hi1 2) (Int.tdiv lo 2)

/-- Source: `func (b *Book) LastPrice() Price`. -/
def Book.LastPrice (b : Book) : Int := b.last

/-- The `DepthPoint` struct. -/
structure DepthPoint where
  Price : Int
  Amount : Int
  deriving DecidableEq, Repr

/-- The `Depth` struct. -/
structure Depth where
  Asks : List DepthPoint
  Bids : List DepthPoint
  deriving DecidableEq, Repr

/-- Local variables of the closure `f` of `Depth`: the slice `res`, the
index `i` and the running aggregate `add`. -/
structure DepthState where
  res : List DepthPoint
  i : Nat
  add : DepthPoint
  deriving DecidableEq, Repr

/-- The assignment `res[i] = add`; `none` is the run-time panic of an index
out of range. -/
def setAt (res : List DepthPoint) (i : Nat) (add : DepthPoint) :
    Option (List DepthPoint) :=
  if i < res.length then some (res.set i add) else none

/-- The loop `for e := l.First(); e != nil && i != n; e = e.Next()` of the
closure `f` of `Depth`, over the chain of entries from the cursor on. -/
def depthLoop (n : Nat) : List Order → DepthState → Option DepthState
  | [], s => some s
  | cur :: rest, s =>
    if s.i = n then some s
    else if cur.Price ≠ s.add.Price then
      if s.add.Price ≠ 0 then
        match setAt s.res s.i s.add with
        | none => none
        | some res1 =>
          depthLoop n rest
            { res := res1, i := s.i + 1
              add := ⟨cur.Price, Rat.add 0 (Rat.sub cur.Amount cur.Filled)⟩ }
      else
        depthLoop n rest
          { res := s.res, i := s.i
            add := ⟨cur.Price, Rat.add 0 (Rat.sub cur.Amount cur.Filled)⟩ }
    else
      depthLoop n rest
        { res := s.res, i := s.i
          add := ⟨s.add.Price, Rat.add s.add.Amount (Rat.sub cur.Amount cur.Filled)⟩ }

/-- The statements of the closure `f` of `Depth` after its loop: the
emission of the pending aggregate (`if i != n && add.Amount != 0`) and the
cut `if i < len(res) { res = res[:i] }`. -/
def depthFinish (n : Nat) (s : DepthState) : Option (List DepthPoint) :=
  if s.i ≠ n ∧ s.add.Amount ≠ 0 then
    match setAt s.res s.i s.add with
    | none => none
    | some res1 =>
      some (if s.i + 1 < res1.length then res1.take (s.i + 1) else res1)
  else
    some (if s.i < s.res.length then s.res.take s.i else s.res)

/-- The closure `f` of `Depth` on one side: `res := make([]DepthPoint, n)`,
the loop, the emission of the pending aggregate, and the cut `res[:i]`. The
limit `n` is a natural number (`make` panics on a negative length). -/
def Depth.f (n : Nat) (l : List Order) : Option (List DepthPoint) :=
  match depthLoop n l { res := List.replicate n ⟨0, 0⟩, i := 0, add := ⟨0, 0⟩ } with
  | none => none
  | some s => depthFinish n s

/-- Result of `Depth`: the returned value and the book, which `Depth` only
reads. -/
structure DepthResult where
  depth : Depth
  book : Book
  deriving DecidableEq, Repr

/-- Source: `func (b *Book) Depth(n int) Depth`; `none` is a run-time
panic. -/
def Book.Depth (b : Book) (n : Nat) : Option DepthResult :=
  match Depth.f n b.asks, Depth.f n b.bids with
  | some asks, some bids => some { depth := { Asks := asks, Bids := bids }, book := b }
  | _, _ => none

/-- Source: `func RatFromInt(v, d int64) Rat`, that is `Rat(v * Div / d)`:
the product wraps, the division truncates toward zero, panics for `d = 0`
(`none`) and wraps for the quotient of the least `int64` by `-1`. -/
def RatFromInt (v d : Int) : Option Int :=
  if d = 0 then none else some (wrap (Int.tdiv (wrap (v * Div)) d))

/-! ## Vocabulary of the statements -/

/-- The fields of an order are `int64` values. -/
def Order.WF (x : Order) : Prop :=
  Rat.InRange x.Price ∧ Rat.InRange x.Amount ∧ Rat.InRange x.Filled ∧
    Rat.InRange x.Money

instance (x : Order) : Decidable x.WF := by
  unfold Order.WF; infer_instance

/-- The side `fill` of `Trade`: `bids` for an Ask, `asks` for a Bid. -/
def Book.opposing (b : Book) (o : Order) : List Order :=
  if o.Typ = OrderType.Ask then b.bids else b.asks

/-- The side `addto` of `Trade` (and the side `l` of `Cancel`): `asks` for
an Ask, `bids` for a Bid. -/
def Book.own (b : Book) (o : Order) : List Order :=
  if o.Typ = OrderType.Ask then b.asks else b.bids

/-- Comparison of the side `Book.opposing`. -/
def oppLess (o : Order) : Order → Order → Bool :=
  if o.Typ = OrderType.Ask then bidsLess else asksLess

/-- Comparison of the side `Book.own`. -/
def ownLess (o : Order) : Order → Order → Bool :=
  if o.Typ = OrderType.Ask then asksLess else bidsLess

/-- A list of entries is in the ranking order of `less`: no entry ranks
strictly before an earlier one. -/
def Ranked (less : Order → Order → Bool) (l : List Order) : Prop :=
  l.Pairwise (fun a b => less b a = false)

instance (less : Order → Order → Bool) (l : List Order) :
    Decidable (Ranked less l) := by
  unfold Ranked; infer_instance

/-- Both sides of the book are in their ranking order. -/
def Book.Sorted (b : Book) : Prop :=
  Ranked bidsLess b.bids ∧ Ranked asksLess b.asks

instance (b : Book) : Decidable b.Sorted := by
  unfold Book.Sorted; infer_instance

/-- Two values describe the same order: identifier, side, price and amount
(the fields `Trade` never writes) agree. -/
def sameOrder (a b : Order) : Prop :=
  a.ID = b.ID ∧ a.Typ = b.Typ ∧ a.Price = b.Price ∧ a.Amount = b.Amount

instance (a b : Order) : Decidable (sameOrder a b) := by
  unfold sameOrder; infer_instance

/-- The resting orders reported by `Trade`: the returned slice without its
first element. -/
def TradeResult.touched (r : TradeResult) : List Order :=
  match r.updated with
  | none => []
  | some l => l.tail

/-- Remaining quantity `Amount - Filled` of an order, as an integer. -/
def Order.remaining (x : Order) : Int := x.Amount - x.Filled

/-- The fill bounds `0 <= filled <= amount`. -/
def Order.Bounded (x : Order) : Prop := 0 ≤ x.Filled ∧ x.Filled ≤ x.Amount

instance (x : Order) : Decidable x.Bounded := by
  unfold Order.Bounded; infer_instance

/-- Every resting order satisfies the fill bounds. -/
def Book.Bounded (b : Book) : Prop :=
  (∀ x ∈ b.bids, x.Bounded) ∧ (∀ x ∈ b.asks, x.Bounded)

instance (b : Book) : Decidable b.Bounded := by
  unfold Book.Bounded; infer_instance

/-- The fields of every resting order are `int64` values. -/
def Book.WF (b : Book) : Prop :=
  (∀ x ∈ b.bids, x.WF) ∧ (∀ x ∈ b.asks, x.WF)

instance (b : Book) : Decidable b.WF := by
  unfold Book.WF; infer_instance

/-- The crossing test of a resting order `x` against the incoming order
`o`: `x.Price <= o.Price` for an incoming Ask, `x.Price >= o.Price` for an
incoming Bid. -/
def crosses (o x : Order) : Bool :=
  if o.Typ = OrderType.Ask then decide (x.Price ≤ o.Price)
  else decide (x.Price ≥ o.Price)

/-- Sum of the remaining quantities of the entries of `l` that pass the
crossing test against `o`. -/
def crossingSum (o : Order) (l : List Order) : Int :=
  ((l.filter (crosses o)).map Order.remaining).sum

/-- The book of `TestBidAskChain` before the order with ID 5: bids at 10,
15 and 30 and an ask at 5, amount 100 each. -/
def chainBook : Book :=
  { bids := [⟨1, OrderType.Bid, 10 * Div, 100 * Div, 0, 0⟩,
             ⟨2, OrderType.Bid, 15 * Div, 100 * Div, 0, 0⟩,
             ⟨3, OrderType.Bid, 30 * Div, 100 * Div, 0, 0⟩]
    asks := [⟨4, OrderType.Ask, 5 * Div, 100 * Div, 0, 0⟩]
    last := 0 }

/-- The order with ID 5 of `TestBidAskChain`: an Ask at 20 for 300. -/
def chainAsk : Order := ⟨5, OrderType.Ask, 20 * Div, 300 * Div, 0, 0⟩

/-- An order as `Trade` expects it: `int64` fields, `amount > 0`,
`filled = 0`, `money = 0`. -/
def Order.Fresh (o : Order) : Prop :=
  o.WF ∧ 0 < o.Amount ∧ o.Filled = 0 ∧ o.Money = 0

instance (o : Order) : Decidable o.Fresh := by
  unfold Order.Fresh; infer_instance

/-- A sequence of `Trade` calls, the book being passed from call to call. -/
def Book.trades (b : Book) (os : List Order) : Book :=
  os.foldl (fun bk o => (bk.Trade o).book) b

/-- The first order of `TestAskBid`: an Ask of amount 1 at price 1. -/
def askOne : Order := ⟨1, OrderType.Ask, 1 * Div, 1 * Div, 0, 0⟩

/-- The second order of `TestAskBid`: a Bid of amount 1 at price 1. -/
def bidOne : Order := ⟨2, OrderType.Bid, 1 * Div, 1 * Div, 0, 0⟩

/-- The orders of `TestBidAskChain` that build `chainBook`. -/
def chainOrders : List Order :=
  [⟨1, OrderType.Bid, 10 * Div, 100 * Div, 0, 0⟩,
   ⟨2, OrderType.Bid, 15 * Div, 100 * Div, 0, 0⟩,
   ⟨3, OrderType.Bid, 30 * Div, 100 * Div, 0, 0⟩,
   ⟨4, OrderType.Ask, 5 * Div, 100 * Div, 0, 0⟩]

/-- Sum of a list of scalars in `int64` arithmetic. -/
def Rat.sum : List Int → Int
  | [] => 0
  | x :: xs => Rat.add x (Rat.sum xs)

/-- A match `m` (the resting order as it stood before the match, and the
match quantity) credited to a participant `x`, as the claim on conservation
words it: the quantity is added to `Filled`, and `Mul(quantity, resting
price)` to `Money`; identifier, side, price and amount stay. The fields are
written out here, independently of the update `Order.credit` of the loop. -/
def creditMatch (m : Order × Int) (x : Order) : Order :=
  { ID := x.ID
    Typ := x.Typ
    Price := x.Price
    Amount := x.Amount
    Filled := Rat.add x.Filled m.2
    Money := Rat.add x.Money (Rat.Mul m.2 m.1.Price) }

/-- The quantities of a list of matches of the incoming order `o`: the
quantity of each match is the value of `dialAmount` for the incoming order,
as it stands after the matches before it, against the resting order of the
match. -/
def MatchQuantities (o : Order) : List (Order × Int) → Prop
  | [] => True
  | m :: ms => m.2 = dialAmount o m.1 ∧ MatchQuantities (creditMatch m o) ms

/-- A comparison of a side structure orders by price: entries of equal
price are interchangeable, and two entries none of which ranks before the
other have equal prices. -/
structure PriceOrder (less : Order → Order → Bool) : Prop where
  eq_of_not_less : ∀ a b, less a b = false → less b a = false → a.Price = b.Price
  not_less_of_eq : ∀ a b, a.Price = b.Price → less a b = false
  congr_left : ∀ a b c, a.Price = b.Price → less a c = less b c
  trans_after : ∀ a b c, less a b = true → less c b = false → less a c = true

/-- The predicate `cur.ID == o.ID` given to `DelIf` by `Cancel`. -/
def sameID (o : Order) : Order → Bool := fun cur => decide (cur.ID = o.ID)

/-- Identifiers are unique within each side of the book. -/
def Book.UniqueIDs (b : Book) : Prop :=
  (b.bids.map Order.ID).Nodup ∧ (b.asks.map Order.ID).Nodup

instance (b : Book) : Decidable b.UniqueIDs := by
  unfold Book.UniqueIDs; infer_instance

/-- The three Bids of `TestCancel`: price 10, amount 100, IDs 1, 2, 3. -/
def cancelOrders : List Order :=
  [⟨1, OrderType.Bid, 10 * Div, 100 * Div, 0, 0⟩,
   ⟨2, OrderType.Bid, 10 * Div, 100 * Div, 0, 0⟩,
   ⟨3, OrderType.Bid, 10 * Div, 100 * Div, 0, 0⟩]

/-- The reference `&Order{ID: 2, Type: Bid, Price: rff(10)}` of
`TestCancel`. -/
def cancelRef : Order := ⟨2, OrderType.Bid, 10 * Div, 0, 0, 0⟩

/-- The sweeping order of `TestCancel`: an Ask at 10 for 300, ID 5. -/
def sweepAsk : Order := ⟨5, OrderType.Ask, 10 * Div, 300 * Div, 0, 0⟩

/-- The reference `&Order{ID: 5, Type: Ask, Price: rff(10)}` of
`TestCancel`. -/
def sweepRef : Order := ⟨5, OrderType.Ask, 10 * Div, 0, 0, 0⟩

/-- A call on the book: `Trade(o)` or `Cancel(ref)`. -/
inductive Call where
  | Trade (o : Order)
  | Cancel (ref : Order)
  deriving DecidableEq, Repr

/-- The book after one call. -/
def Book.call (b : Book) : Call → Book
  | Call.Trade o => (b.Trade o).book
  | Call.Cancel ref => (b.Cancel ref).book

/-- The book after a sequence of `Trade` and `Cancel` calls. -/
def Book.calls (b : Book) (cs : List Call) : Book :=
  cs.foldl Book.call b

/-- Ghost instrumentation for insertion order: an entry of a side is paired
with the number of the call that inserted it. This is `Put` on such
entries: the place is chosen from the orders alone, as in `Put`. -/
def stampedPut (less : Order → Order → Bool) :
    List (Order × Nat) → Order × Nat → List (Order × Nat)
  | [], e => [e]
  | x :: xs, e => if less e.1 x.1 then e :: x :: xs else x :: stampedPut less xs e

/-- Ghost instrumentation: the side left by `DelIf` on stamped entries; the
entry removed is chosen from the orders alone, as in `DelIf`. -/
def stampedDelIf (less : Order → Order → Bool) :
    List (Order × Nat) → Order → (Order → Bool) → List (Order × Nat)
  | [], _, _ => []
  | x :: xs, o, p =>
    if less x.1 o then x :: stampedDelIf less xs o p
    else if less o x.1 then x :: xs
    else if p x.1 then xs
    else x :: stampedDelIf less xs o p

/-- Ghost instrumentation: the side left by the loop of `Trade` on stamped
entries; the steps are those of `tradeLoop`, an entry that stays keeps its
stamp. -/
def stampedLoop (o : Order) : List (Order × Nat) → List (Order × Nat)
  | [] => []
  | cur :: rest =>
    if ¬ (o.Filled < o.Amount) then cur :: rest
    else if stops o cur.1 then cur :: rest
    else
      let dial := dialAmount o cur.1
      let money := Rat.Mul dial cur.1.Price
      let r := stampedLoop (o.credit dial money) rest
      if exceeds o cur.1 then r else (cur.1.credit dial money, cur.2) :: r

/-- A book whose resting entries carry the number of the call that inserted
them. -/
structure StampedBook where
  bids : List (Order × Nat)
  asks : List (Order × Nat)
  last : Int
  deriving DecidableEq, Repr

/-- The book without the stamps. -/
def StampedBook.erase (sb : StampedBook) : Book :=
  { bids := sb.bids.map Prod.fst, asks := sb.asks.map Prod.fst, last := sb.last }

/-- The stamped book after the call number `t`: the sides change as in
`Trade` and `Cancel`, and an order that `Trade` inserts gets the stamp
`t`. -/
def StampedBook.call (sb : StampedBook) (t : Nat) : Call → StampedBook
  | Call.Trade o =>
    if o.Typ = OrderType.Ask then
      { bids := stampedLoop o sb.bids
        asks :=
          if (sb.erase.Trade o).o.Filled < (sb.erase.Trade o).o.Amount then
            stampedPut asksLess sb.asks ((sb.erase.Trade o).o, t)
          else sb.asks
        last := (sb.erase.Trade o).book.last }
    else
      { bids :=
          if (sb.erase.Trade o).o.Filled < (sb.erase.Trade o).o.Amount then
            stampedPut bidsLess sb.bids ((sb.erase.Trade o).o, t)
          else sb.bids
        asks := stampedLoop o sb.asks
        last := (sb.erase.Trade o).book.last }
  | Call.Cancel ref =>
    if ref.Typ = OrderType.Ask then
      { bids := sb.bids
        asks := stampedDelIf asksLess sb.asks ref (sameID ref)
        last := sb.last }
    else
      { bids := stampedDelIf bidsLess sb.bids ref (sameID ref)
        asks := sb.asks
        last := sb.last }

/-- The stamped book after a sequence of calls numbered from `t` on. -/
def StampedBook.run (sb : StampedBook) (t : Nat) : List Call → StampedBook
  | [] => sb
  | c :: cs => (sb.call t c).run (t + 1) cs

/-- The stamped book after a sequence of calls on a new book, the calls
being numbered from 0. -/
def stampedCalls (cs : List Call) : StampedBook :=
  StampedBook.run { bids := [], asks := [], last := 0 } 0 cs

/-- Entries of equal price stand in the order of their insertion: of two
entries of one price the earlier in the side was inserted by the earlier
call. -/
def StampOrdered (l : List (Order × Nat)) : Prop :=
  l.Pairwise (fun a c => a.1.Price = c.1.Price → a.2 < c.2)

instance (l : List (Order × Nat)) : Decidable (StampOrdered l) := by
  unfold StampOrdered; infer_instance

/-- What the stamps of a side say at the time `t`, for the sequence `full`
of calls: every entry was inserted by a call before `t`, that call is a
`Trade` of the same order, and entries of equal price stand in the order of
their insertion. -/
def SideInv (full : List Call) (t : Nat) (l : List (Order × Nat)) : Prop :=
  (∀ e ∈ l, e.2 < t) ∧
  (∀ e ∈ l, ∃ o, full[e.2]? = some (Call.Trade o) ∧ sameOrder o e.1) ∧
  StampOrdered l

/-- Four bids whose identifiers do not follow the order of submission: IDs
3 and 2 at price 10, ID 3 again at price 9, ID 1 at price 10; and a
cancellation of the bid with ID 2. -/
def fifoCalls : List Call :=
  [Call.Trade ⟨3, OrderType.Bid, 10 * Div, 100 * Div, 0, 0⟩,
   Call.Trade ⟨2, OrderType.Bid, 10 * Div, 100 * Div, 0, 0⟩,
   Call.Trade ⟨3, OrderType.Bid, 9 * Div, 100 * Div, 0, 0⟩,
   Call.Trade ⟨1, OrderType.Bid, 10 * Div, 100 * Div, 0, 0⟩,
   Call.Trade ⟨7, OrderType.Bid, 10 * Div, 100 * Div, 0, 0⟩,
   Call.Cancel ⟨2, OrderType.Bid, 10 * Div, 0, 0, 0⟩]

/-- The calls of `TestBidAskChain` and a cancellation of its order 3. -/
def chainCalls : List Call :=
  [Call.Trade ⟨1, OrderType.Bid, 10 * Div, 100 * Div, 0, 0⟩,
   Call.Trade ⟨2, OrderType.Bid, 15 * Div, 100 * Div, 0, 0⟩,
   Call.Trade ⟨3, OrderType.Bid, 30 * Div, 100 * Div, 0, 0⟩,
   Call.Trade ⟨4, OrderType.Ask, 5 * Div, 100 * Div, 0, 0⟩,
   Call.Trade ⟨5, OrderType.Ask, 20 * Div, 300 * Div, 0, 0⟩,
   Call.Trade ⟨6, OrderType.Bid, 10 * Div, 200 * Div, 0, 0⟩,
   Call.Cancel ⟨3, OrderType.Bid, 30 * Div, 0, 0, 0⟩]

/-- The value `hi` of the claim on `MiddlePrice`: the price of the first
order of the bid side, 0 if the bid side is empty. -/
def midHi (b : Book) : Int :=
  match b.bids.head? with
  | none => 0
  | some x => x.Price

/-- The value `lo` of the claim on `MiddlePrice`: the price of the first
order of the ask side, `hi` if the ask side is empty. -/
def midLo (b : Book) : Int :=
  match b.asks.head? with
  | none => midHi b
  | some x => x.Price

/-- The book of `TestMiddlePrice`: one bid at 10 and one ask at 9. -/
def midBook : Book :=
  { bids := [⟨1, OrderType.Bid, 10 * Div, 100 * Div, 0, 0⟩]
    asks := [⟨4, OrderType.Ask, 9 * Div, 50 * Div, 0, 0⟩]
    last := 0 }

/-- A book with one resting bid at the odd scaled price 10000000001 (that
is 10.000000001) and no ask. -/
def oddBidBook : Book :=
  { bids := [⟨1, OrderType.Bid, 10000000001, 100 * Div, 0, 0⟩]
    asks := []
    last := 0 }

/-- Three calls after which a completely filled order rests in front of
an open one: an Ask of 1 at 20, a Bid of 1 at 20 that consumes it exactly,
and an Ask of 1 at 10. -/
def zeroLevelOrders : List Order :=
  [⟨1, OrderType.Ask, 20 * Div, 1 * Div, 0, 0⟩,
   ⟨2, OrderType.Bid, 20 * Div, 1 * Div, 0, 0⟩,
   ⟨3, OrderType.Ask, 10 * Div, 1 * Div, 0, 0⟩]

/-- No resting bid and resting ask pass the crossing test against each
other: every resting bid has a strictly greater price than every resting
ask. -/
def Book.Uncrossed (b : Book) : Prop :=
  ∀ x ∈ b.bids, ∀ y ∈ b.asks, y.Price < x.Price

instance (b : Book) : Decidable b.Uncrossed := by
  unfold Book.Uncrossed; infer_instance

/-- An Ask at 8 for 50, submitted after the calls `chainCalls`. -/
def lateAsk : Order := ⟨7, OrderType.Ask, 8 * Div, 50 * Div, 0, 0⟩

/-- The distinct values of a list, in the order of their first
occurrence. -/
def distinct : List Int → List Int
  | [] => []
  | p :: ps => p :: (distinct ps).filter (fun q => decide (q ≠ p))

/-- Sum of `amount - filled` over all entries of a side at the exact price
`p`. -/
def levelSum (l : List Order) (p : Int) : Int :=
  ((l.filter (fun x => decide (x.Price = p))).map Order.remaining).sum

/-- The price levels of a side: one point per distinct resting price, in
the order of the side, with the sum of `amount - filled` over all entries at
that price. -/
def priceLevels (l : List Order) : List DepthPoint :=
  (distinct (l.map (fun x => x.Price))).map (fun p => ⟨p, levelSum l p⟩)

/-- Preconditions on one side for the aggregation by `Depth`: `int64`
fields, nonzero prices, `filled < amount`, and no price level whose
remaining quantities sum to `2^63` or more. -/
def DepthReady (l : List Order) : Prop :=
  (∀ x ∈ l, x.WF ∧ x.Price ≠ 0 ∧ x.Filled < x.Amount) ∧
  (∀ x ∈ l, levelSum l x.Price < 9223372036854775808)

instance (l : List Order) : Decidable (DepthReady l) := by
  unfold DepthReady; infer_instance

/-- Two bids at price 1, each with the amount `2^62`. -/
def heavyBids : List Order :=
  [⟨1, OrderType.Bid, 1 * Div, 4611686018427387904, 0, 0⟩,
   ⟨2, OrderType.Bid, 1 * Div, 4611686018427387904, 0, 0⟩]

/-- The book of `TestDepth`, with a second bid at 10. -/
def depthBook : Book :=
  { bids := [⟨1, OrderType.Bid, 10 * Div, 100 * Div, 0, 0⟩,
             ⟨7, OrderType.Bid, 10 * Div, 50 * Div, 0, 0⟩,
             ⟨2, OrderType.Bid, 20 * Div, 101 * Div, 0, 0⟩,
             ⟨3, OrderType.Bid, 30 * Div, 102 * Div, 0, 0⟩]
    asks := [⟨4, OrderType.Ask, 9 * Div, 99 * Div, 0, 0⟩,
             ⟨5, OrderType.Ask, 8 * Div, 98 * Div, 0, 0⟩,
             ⟨6, OrderType.Ask, 7 * Div, 97 * Div, 0, 0⟩]
    last := 0 }

/-! ## Scalar lemmas -/

theorem wrap_of_inRange {x : Int} (h : Rat.InRange x) : wrap x = x := by
  unfold Rat.InRange at h
  unfold wrap
  omega

theorem wrap_inRange (x : Int) : Rat.InRange (wrap x) := by
  unfold Rat.InRange wrap
  omega

theorem wrap_eq_iff (x y : Int) :
    wrap x = wrap y ↔ x % 18446744073709551616 = y % 18446744073709551616 := by
  unfold wrap
  omega

/-! ## The loop of `Trade` -/

theorem tradeLoop_full (o : Order) (last : Int) (l : List Order)
    (h : ¬ (o.Filled < o.Amount)) :
    tradeLoop o last l = { o := o, fill := l, touched := [], last := last } := by
  cases l with
  | nil => rfl
  | cons cur rest => simp [tradeLoop, h]

theorem tradeLoop_stop (o : Order) (last : Int) (cur : Order) (rest : List Order)
    (h : stops o cur = true) :
    tradeLoop o last (cur :: rest) =
      { o := o, fill := cur :: rest, touched := [], last := last } := by
  simp [tradeLoop, h]

theorem tradeLoop_step (o : Order) (last : Int) (cur : Order) (rest : List Order)
    (h1 : o.Filled < o.Amount) (h2 : stops o cur = false) :
    tradeLoop o last (cur :: rest) =
      { o := (tradeLoop (o.credit (dialAmount o cur) (Rat.Mul (dialAmount o cur) cur.Price))
                cur.Price rest).o
        fill :=
          if exceeds o cur then
            (tradeLoop (o.credit (dialAmount o cur) (Rat.Mul (dialAmount o cur) cur.Price))
              cur.Price rest).fill
          else
            cur.credit (dialAmount o cur) (Rat.Mul (dialAmount o cur) cur.Price) ::
              (tradeLoop (o.credit (dialAmount o cur) (Rat.Mul (dialAmount o cur) cur.Price))
                cur.Price rest).fill
        touched :=
          cur.credit (dialAmount o cur) (Rat.Mul (dialAmount o cur) cur.Price) ::
            (tradeLoop (o.credit (dialAmount o cur) (Rat.Mul (dialAmount o cur) cur.Price))
              cur.Price rest).touched
        last :=
          (tradeLoop (o.credit (dialAmount o cur) (Rat.Mul (dialAmount o cur) cur.Price))
            cur.Price rest).last } := by
  simp [tradeLoop, h1, h2]

/-- A match that does not exceed the resting remainder completes the
incoming order. -/
theorem credit_completes (o cur : Order) (m : Int) (ha : Rat.InRange o.Amount)
    (h : exceeds o cur = false) :
    (o.credit (dialAmount o cur) m).Filled = o.Amount := by
  unfold Rat.InRange at ha
  simp only [Order.credit, dialAmount, h, Rat.add, Rat.sub, wrap]
  simp
  omega

theorem credit_sameOrder (x : Order) (d m : Int) : sameOrder x (x.credit d m) := by
  simp [sameOrder, Order.credit]

theorem stops_credit (o cur : Order) (d m : Int) :
    stops (o.credit d m) cur = stops o cur := by
  simp [stops, Order.credit]

/-! ## `Trade` in terms of its loop -/

theorem Trade_o (b : Book) (o : Order) :
    (b.Trade o).o = (tradeLoop o b.last (b.opposing o)).o := by
  unfold Book.Trade Book.opposing
  split <;> rfl

theorem Trade_opposing (b : Book) (o : Order) :
    (b.Trade o).book.opposing o = (tradeLoop o b.last (b.opposing o)).fill := by
  unfold Book.Trade Book.opposing
  split <;> simp [*]

theorem Trade_own (b : Book) (o : Order) :
    (b.Trade o).book.own o =
      if (tradeLoop o b.last (b.opposing o)).o.Filled <
          (tradeLoop o b.last (b.opposing o)).o.Amount then
        Put (ownLess o) (b.own o) (tradeLoop o b.last (b.opposing o)).o
      else b.own o := by
  unfold Book.Trade Book.opposing Book.own ownLess
  split <;> simp [*]

theorem Trade_last (b : Book) (o : Order) :
    (b.Trade o).book.last = (tradeLoop o b.last (b.opposing o)).last := by
  unfold Book.Trade Book.opposing
  split <;> rfl

theorem Trade_updated (b : Book) (o : Order) :
    (b.Trade o).updated =
      if (tradeLoop o b.last (b.opposing o)).touched = [] then none
      else some ((tradeLoop o b.last (b.opposing o)).o ::
        (tradeLoop o b.last (b.opposing o)).touched) := by
  by_cases ht : o.Typ = OrderType.Ask
  · cases h : (tradeLoop o b.last b.bids).touched <;>
      simp [Book.Trade, Book.opposing, ht, h]
  · cases h : (tradeLoop o b.last b.asks).touched <;>
      simp [Book.Trade, Book.opposing, ht, h]

theorem Trade_touched (b : Book) (o : Order) :
    (b.Trade o).touched = (tradeLoop o b.last (b.opposing o)).touched := by
  unfold TradeResult.touched
  rw [Trade_updated]
  cases h : (tradeLoop o b.last (b.opposing o)).touched <;> simp

/-! ## Price-time priority -/

theorem forall₂_mem_right {R : Order → Order → Prop} {l1 l2 : List Order}
    (h : List.Forall₂ R l1 l2) {y : Order} (hy : y ∈ l2) : ∃ x ∈ l1, R x y := by
  induction h with
  | nil => cases hy
  | cons hab _ ih =>
    rcases List.mem_cons.1 hy with rfl | hy
    · exact ⟨_, List.mem_cons_self _ _, hab⟩
    · obtain ⟨x, hx, hr⟩ := ih hy
      exact ⟨x, List.mem_cons_of_mem _ hx, hr⟩

theorem ranked_of_sameOrder (less : Order → Order → Bool)
    (hless : ∀ a b a1 b1, sameOrder a a1 → sameOrder b b1 → less b a = false →
      less b1 a1 = false)
    {l1 l2 : List Order} (h : List.Forall₂ sameOrder l1 l2) (hr : Ranked less l1) :
    Ranked less l2 := by
  unfold Ranked at *
  induction h with
  | nil => exact List.Pairwise.nil
  | cons hab hrest ih =>
    rw [List.pairwise_cons] at hr ⊢
    refine ⟨?_, ih hr.2⟩
    intro y hy
    obtain ⟨x, hx, hxy⟩ := forall₂_mem_right hrest hy
    exact hless _ _ _ _ hab hxy (hr.1 x hx)

theorem oppLess_sameOrder (o : Order) (a b a1 b1 : Order) (ha : sameOrder a a1)
    (hb : sameOrder b b1) (h : oppLess o b a = false) : oppLess o b1 a1 = false := by
  obtain ⟨-, -, hpa, -⟩ := ha
  obtain ⟨-, -, hpb, -⟩ := hb
  unfold oppLess at *
  split at h <;> simp_all [bidsLess, asksLess]

/-- Shape of the loop: the touched orders are a leading run of the side; the
side afterwards is what lies beyond it, possibly preceded by the touched
order visited last. -/
theorem tradeLoop_shape (l : List Order) :
    ∀ (o : Order) (last : Int), Rat.InRange o.Amount →
      ∃ pre rest, l = pre ++ rest ∧
        List.Forall₂ sameOrder pre (tradeLoop o last l).touched ∧
        ((tradeLoop o last l).fill = rest ∨
          ∃ t, (tradeLoop o last l).touched.getLast? = some t ∧
            (tradeLoop o last l).fill = t :: rest) := by
  induction l with
  | nil =>
    intro o last _
    exact ⟨[], [], rfl, by simp [tradeLoop], Or.inl (by simp [tradeLoop])⟩
  | cons cur rest ih =>
    intro o last ha
    by_cases h1 : o.Filled < o.Amount
    · cases h2 : stops o cur with
      | true =>
        rw [tradeLoop_stop o last cur rest h2]
        exact ⟨[], cur :: rest, rfl, List.Forall₂.nil, Or.inl rfl⟩
      | false =>
        rw [tradeLoop_step o last cur rest h1 h2]
        cases h3 : exceeds o cur with
        | true =>
          obtain ⟨pre, rest1, hsplit, hf, hfill⟩ :=
            ih (o.credit (dialAmount o cur) (Rat.Mul (dialAmount o cur) cur.Price))
              cur.Price (by simpa [Order.credit] using ha)
          refine ⟨cur :: pre, rest1, by simp [hsplit],
            List.Forall₂.cons (credit_sameOrder _ _ _) hf, ?_⟩
          simp only [if_true]
          rcases hfill with hfill | ⟨t, ht, hfill⟩
          · exact Or.inl hfill
          · refine Or.inr ⟨t, ?_, hfill⟩
            cases hq : (tradeLoop (o.credit (dialAmount o cur)
                (Rat.Mul (dialAmount o cur) cur.Price)) cur.Price rest).touched with
            | nil => simp [hq] at ht
            | cons a as =>
              rw [hq] at ht
              rw [List.getLast?_cons_cons]
              exact ht
        | false =>
          have hfull := credit_completes o cur (Rat.Mul (dialAmount o cur) cur.Price) ha h3
          have hnot : ¬ ((o.credit (dialAmount o cur)
              (Rat.Mul (dialAmount o cur) cur.Price)).Filled <
              (o.credit (dialAmount o cur) (Rat.Mul (dialAmount o cur) cur.Price)).Amount) := by
            rw [hfull]; simp [Order.credit]
          rw [tradeLoop_full _ _ _ hnot]
          refine ⟨[cur], rest, rfl,
            List.Forall₂.cons (credit_sameOrder _ _ _) List.Forall₂.nil, Or.inr ⟨_, rfl, ?_⟩⟩
          simp
    · rw [tradeLoop_full o last _ h1]
      exact ⟨[], cur :: rest, rfl, List.Forall₂.nil, Or.inl rfl⟩

/-- C1 (price-time priority of Trade). For a book whose opposing side is in
ranking order and an incoming order `o` (its amount an `int64` value), the
resting orders touched by `Trade(o)` are a leading run `pre` of the opposing
side as it stood before the call, in the same order and hence in ranking
order; the opposing side afterwards is the part `rest` beyond that run, with
all fields and positions kept, preceded at most by the touched order that
was visited last: every other touched order has been removed. -/
theorem Trade_price_time_priority (b : Book) (o : Order)
    (hs : Ranked (oppLess o) (b.opposing o)) (ha : Rat.InRange o.Amount) :
    ∃ pre rest, b.opposing o = pre ++ rest ∧
      List.Forall₂ sameOrder pre (b.Trade o).touched ∧
      Ranked (oppLess o) (b.Trade o).touched ∧
      ((b.Trade o).book.opposing o = rest ∨
        ∃ t, (b.Trade o).touched.getLast? = some t ∧
          (b.Trade o).book.opposing o = t :: rest) := by
  obtain ⟨pre, rest, hsplit, hf, hfill⟩ := tradeLoop_shape (b.opposing o) o b.last ha
  rw [Trade_touched, Trade_opposing]
  refine ⟨pre, rest, hsplit, hf, ?_, hfill⟩
  refine ranked_of_sameOrder (oppLess o) (oppLess_sameOrder o) hf ?_
  rw [hsplit] at hs
  exact (List.pairwise_append.1 hs).1

/-- Witness of `Trade_price_time_priority` on the book of
`TestBidAskChain`. -/
theorem Trade_price_time_priority_witness :
    Ranked (oppLess chainAsk) (chainBook.opposing chainAsk) ∧
    Rat.InRange chainAsk.Amount ∧
    ∃ pre rest, chainBook.opposing chainAsk = pre ++ rest ∧
      List.Forall₂ sameOrder pre (chainBook.Trade chainAsk).touched ∧
      Ranked (oppLess chainAsk) (chainBook.Trade chainAsk).touched ∧
      ((chainBook.Trade chainAsk).book.opposing chainAsk = rest ∨
        ∃ t, (chainBook.Trade chainAsk).touched.getLast? = some t ∧
          (chainBook.Trade chainAsk).book.opposing chainAsk = t :: rest) :=
  ⟨by decide, by decide,
    Trade_price_time_priority chainBook chainAsk (by decide) (by decide)⟩

/-! ## Total fill -/

theorem crosses_eq_not_stops (o x : Order) : crosses o x = !stops o x := by
  unfold crosses stops
  by_cases ht : o.Typ = OrderType.Ask
  · by_cases hp : x.Price ≤ o.Price
    · have : ¬ (x.Price > o.Price) := by omega
      simp [ht, hp, this]
    · have : x.Price > o.Price := by omega
      simp [ht, hp, this]
  · by_cases hp : x.Price ≥ o.Price
    · have : ¬ (x.Price < o.Price) := by omega
      simp [ht, hp, this]
    · have : x.Price < o.Price := by omega
      simp [ht, hp, this]

theorem crossingSum_credit (o : Order) (d m : Int) (l : List Order) :
    crossingSum (o.credit d m) l = crossingSum o l := by
  have : crosses (o.credit d m) = crosses o := by
    funext x
    simp [crosses, Order.credit]
  simp [crossingSum, this]

theorem oppLess_credit (o : Order) (d m : Int) : oppLess (o.credit d m) = oppLess o := by
  simp [oppLess, Order.credit]

theorem crossingSum_nonneg (o : Order) (l : List Order) (hb : ∀ x ∈ l, x.Bounded) :
    0 ≤ crossingSum o l := by
  induction l with
  | nil => simp [crossingSum]
  | cons x xs ih =>
    have hx := hb x (List.mem_cons_self _ _)
    have hxs := ih (fun y hy => hb y (List.mem_cons_of_mem _ hy))
    unfold Order.Bounded at hx
    unfold crossingSum at hxs ⊢
    by_cases hc : crosses o x = true
    · simp only [List.filter_cons, hc, if_true, List.map_cons, List.sum_cons,
        Order.remaining] at hxs ⊢
      omega
    · simp only [List.filter_cons, hc] at hxs ⊢
      simpa using hxs

/-- Once an entry fails the crossing test, every later entry of a ranked
side fails it too. -/
theorem crossingSum_of_stops (o cur : Order) (rest : List Order)
    (hs : Ranked (oppLess o) (cur :: rest)) (h : stops o cur = true) :
    crossingSum o (cur :: rest) = 0 := by
  have hall : ∀ x ∈ cur :: rest, crosses o x = false := by
    intro x hx
    rw [crosses_eq_not_stops]
    rcases List.mem_cons.1 hx with rfl | hx
    · simp [h]
    · have hr := (List.pairwise_cons.1 hs).1 x hx
      unfold oppLess at hr
      unfold stops at h ⊢
      by_cases ht : o.Typ = OrderType.Ask
      · simp [ht, bidsLess] at hr h ⊢
        omega
      · simp [ht, asksLess] at hr h ⊢
        omega
  have : (cur :: rest).filter (crosses o) = [] := by
    rw [List.filter_eq_nil_iff]
    intro x hx
    simp [hall x hx]
  simp [crossingSum, this]

/-- On orders within their fill bounds the match quantity is the minimum of
the two remaining quantities, computed without overflow. -/
theorem dialAmount_eq_min (o cur : Order) (ho : o.Bounded) (hao : Rat.InRange o.Amount)
    (hc : cur.Bounded) (hac : Rat.InRange cur.Amount) :
    dialAmount o cur = min o.remaining cur.remaining := by
  unfold Order.Bounded at ho hc
  unfold Rat.InRange at hao hac
  have h1 : Rat.sub o.Amount o.Filled = o.Amount - o.Filled :=
    wrap_of_inRange (by unfold Rat.InRange; omega)
  have h2 : Rat.sub cur.Amount cur.Filled = cur.Amount - cur.Filled :=
    wrap_of_inRange (by unfold Rat.InRange; omega)
  unfold dialAmount exceeds Order.remaining
  rw [h1, h2]
  by_cases h : o.Amount - o.Filled > cur.Amount - cur.Filled
  · simp only [h, decide_True, if_true]
    omega
  · simp only [h, decide_False]
    simp only [Bool.false_eq_true, if_false]
    omega

theorem exceeds_iff (o cur : Order) (ho : o.Bounded) (hao : Rat.InRange o.Amount)
    (hc : cur.Bounded) (hac : Rat.InRange cur.Amount) :
    exceeds o cur = true ↔ o.remaining > cur.remaining := by
  unfold Order.Bounded at ho hc
  unfold Rat.InRange at hao hac
  have h1 : Rat.sub o.Amount o.Filled = o.Amount - o.Filled :=
    wrap_of_inRange (by unfold Rat.InRange; omega)
  have h2 : Rat.sub cur.Amount cur.Filled = cur.Amount - cur.Filled :=
    wrap_of_inRange (by unfold Rat.InRange; omega)
  unfold exceeds Order.remaining
  rw [h1, h2]
  simp

/-- Crediting a quantity that fits into the remaining quantity adds it to
`Filled` exactly. -/
theorem credit_filled (x : Order) (d m : Int) (hx : x.Bounded) (ha : Rat.InRange x.Amount)
    (hd0 : 0 ≤ d) (hd : d ≤ x.remaining) :
    (x.credit d m).Filled = x.Filled + d := by
  unfold Order.Bounded at hx
  unfold Rat.InRange at ha
  unfold Order.remaining at hd
  simp only [Order.credit, Rat.add]
  exact wrap_of_inRange (by unfold Rat.InRange; omega)

/-- The loop fills the incoming order up to its amount or up to the crossing
interest of the side, whichever is smaller. -/
theorem tradeLoop_filled (l : List Order) :
    ∀ (o : Order) (last : Int), Ranked (oppLess o) l →
      (∀ x ∈ l, x.Bounded ∧ Rat.InRange x.Amount) → o.Bounded → Rat.InRange o.Amount →
      (tradeLoop o last l).o.Filled = min o.Amount (o.Filled + crossingSum o l) := by
  induction l with
  | nil =>
    intro o last _ _ ho _
    unfold Order.Bounded at ho
    simp only [tradeLoop, crossingSum, List.filter_nil, List.map_nil, List.sum_nil]
    omega
  | cons cur rest ih =>
    intro o last hs hb ho hao
    have hnn : 0 ≤ crossingSum o (cur :: rest) :=
      crossingSum_nonneg o _ (fun x hx => (hb x hx).1)
    by_cases h1 : o.Filled < o.Amount
    · cases h2 : stops o cur with
      | true =>
        rw [tradeLoop_stop o last cur rest h2, crossingSum_of_stops o cur rest hs h2]
        unfold Order.Bounded at ho
        simp only
        omega
      | false =>
        have hcur := hb cur (List.mem_cons_self _ _)
        have hdial := dialAmount_eq_min o cur ho hao hcur.1 hcur.2
        have hcb := hcur.1
        unfold Order.Bounded at hcb
        have hob := ho
        unfold Order.Bounded at hob
        have hfill := credit_filled o (dialAmount o cur)
          (Rat.Mul (dialAmount o cur) cur.Price) ho hao
          (by rw [hdial]; unfold Order.remaining; omega)
          (by rw [hdial]; unfold Order.remaining; omega)
        have hrec := ih (o.credit (dialAmount o cur) (Rat.Mul (dialAmount o cur) cur.Price))
          cur.Price
          (by rw [oppLess_credit]; exact (List.pairwise_cons.1 hs).2)
          (fun x hx => hb x (List.mem_cons_of_mem _ hx))
          (by
            unfold Order.Bounded
            rw [hfill, hdial]
            simp only [Order.credit]
            unfold Order.remaining
            omega)
          (by simpa [Order.credit] using hao)
        have hrest : 0 ≤ crossingSum o rest :=
          crossingSum_nonneg o _ (fun x hx => (hb x (List.mem_cons_of_mem _ hx)).1)
        have hsum : crossingSum o (cur :: rest) = cur.remaining + crossingSum o rest := by
          have hc : crosses o cur = true := by rw [crosses_eq_not_stops, h2]; rfl
          simp [crossingSum, List.filter_cons, hc]
        rw [tradeLoop_step o last cur rest h1 h2]
        simp only
        rw [hrec, hfill, crossingSum_credit, hsum, hdial]
        simp only [Order.credit]
        unfold Order.remaining at *
        omega
    · rw [tradeLoop_full o last _ h1]
      unfold Order.Bounded at ho
      simp only
      omega

/-- C2 (total fill of Trade). For a book whose sides are in ranking order
and whose resting orders satisfy `0 <= filled <= amount` (all fields being
`int64` values), and an incoming order with `filled = 0 < amount`, the
incoming order's `filled` after `Trade` is `min(amount, S)`, `S` being the
sum of `amount - filled` over the orders of the opposing side that pass the
crossing test; and the match quantity `dialAmount` of an incoming order
against a resting one, both within their fill bounds, is the minimum of the
two remaining quantities. -/
theorem Trade_total_fill (b : Book) (o : Order) (hs : b.Sorted) (hb : b.Bounded)
    (hwf : b.WF) (ho : o.WF) (hf : o.Filled = 0) (hpos : 0 < o.Amount) :
    (b.Trade o).o.Filled = min o.Amount (crossingSum o (b.opposing o)) ∧
    ∀ o1 cur : Order, o1.Bounded → Rat.InRange o1.Amount → cur.Bounded →
      Rat.InRange cur.Amount → dialAmount o1 cur = min o1.remaining cur.remaining := by
  refine ⟨?_, fun o1 cur h1 h2 h3 h4 => dialAmount_eq_min o1 cur h1 h2 h3 h4⟩
  rw [Trade_o]
  have hr : Ranked (oppLess o) (b.opposing o) := by
    unfold oppLess Book.opposing
    split
    · exact hs.1
    · exact hs.2
  have hbw : ∀ x ∈ b.opposing o, x.Bounded ∧ Rat.InRange x.Amount := by
    intro x hx
    unfold Book.opposing at hx
    split at hx
    · exact ⟨hb.1 x hx, (hwf.1 x hx).2.1⟩
    · exact ⟨hb.2 x hx, (hwf.2 x hx).2.1⟩
  have hob : o.Bounded := by
    unfold Order.Bounded
    omega
  have := tradeLoop_filled (b.opposing o) o b.last hr hbw hob ho.2.1
  rw [this, hf]
  simp

/-- Witness of `Trade_total_fill` on the book of `TestBidAskChain`: the Ask
for 300 at 20 fills 200. -/
theorem Trade_total_fill_witness :
    chainBook.Sorted ∧ chainBook.Bounded ∧ chainBook.WF ∧ chainAsk.WF ∧
    chainAsk.Filled = 0 ∧ 0 < chainAsk.Amount ∧
    (chainBook.Trade chainAsk).o.Filled = 200 * Div ∧
    (chainBook.Trade chainAsk).o.Filled =
      min chainAsk.Amount (crossingSum chainAsk (chainBook.opposing chainAsk)) :=
  ⟨by decide, by decide, by decide, by decide, by decide, by decide, by decide,
    (Trade_total_fill chainBook chainAsk (by decide) (by decide) (by decide) (by decide)
      (by decide) (by decide)).1⟩

/-! ## Fully consumed resting orders -/

/-- C3 (fully consumed resting orders leave the book), evaluated on the
scenario of `TestAskBid`: after `Trade(Ask(1, 1))` and `Trade(Bid(1, 1))` on
a new book the Bid is returned completely filled together with the Ask, and
the Ask, with `filled = amount`, is still stored in the ask side: the test
`o.Amount-o.Filled > cur.Amount-cur.Filled` is strict, so a resting order
consumed by an equal incoming remainder is not deleted. -/
theorem Trade_equal_match_keeps_resting :
    ((New.Trade askOne).book.Trade bidOne).updated =
        some [⟨2, OrderType.Bid, 1 * Div, 1 * Div, 1 * Div, 1 * Div⟩,
              ⟨1, OrderType.Ask, 1 * Div, 1 * Div, 1 * Div, 1 * Div⟩] ∧
    ((New.Trade askOne).book.Trade bidOne).book.bids = [] ∧
    ((New.Trade askOne).book.Trade bidOne).book.asks =
        [⟨1, OrderType.Ask, 1 * Div, 1 * Div, 1 * Div, 1 * Div⟩] ∧
    ¬ (∀ x ∈ ((New.Trade askOne).book.Trade bidOne).book.asks, x.Filled < x.Amount) := by
  decide

/-! ## Fill bounds -/

theorem mem_Put (less : Order → Order → Bool) (l : List Order) (o x : Order)
    (h : x ∈ Put less l o) : x = o ∨ x ∈ l := by
  induction l with
  | nil => simpa [Put] using h
  | cons y ys ih =>
    unfold Put at h
    split at h
    · rcases List.mem_cons.1 h with h | h
      · exact Or.inl h
      · exact Or.inr h
    · rcases List.mem_cons.1 h with h | h
      · exact Or.inr (h ▸ List.mem_cons_self _ _)
      · rcases ih h with h | h
        · exact Or.inl h
        · exact Or.inr (List.mem_cons_of_mem _ h)

theorem credit_WF (x : Order) (d m : Int) (hx : x.WF) : (x.credit d m).WF := by
  unfold Order.WF at *
  simp only [Order.credit, Rat.add]
  exact ⟨hx.1, hx.2.1, wrap_inRange _, wrap_inRange _⟩

theorem credit_Bounded (x : Order) (d m : Int) (hx : x.Bounded) (ha : Rat.InRange x.Amount)
    (hd0 : 0 ≤ d) (hd : d ≤ x.remaining) : (x.credit d m).Bounded := by
  have hf := credit_filled x d m hx ha hd0 hd
  unfold Order.Bounded at *
  rw [hf]
  unfold Order.remaining at hd
  simp only [Order.credit]
  omega

/-- The loop keeps every order it handles within its fill bounds. -/
theorem tradeLoop_bounds (l : List Order) :
    ∀ (o : Order) (last : Int), (∀ x ∈ l, x.Bounded ∧ x.WF) → o.Bounded → o.WF →
      ((tradeLoop o last l).o.Bounded ∧ (tradeLoop o last l).o.WF) ∧
      (∀ x ∈ (tradeLoop o last l).fill, x.Bounded ∧ x.WF) ∧
      (∀ x ∈ (tradeLoop o last l).touched, x.Bounded ∧ x.WF) := by
  induction l with
  | nil =>
    intro o last _ ho hw
    simp [tradeLoop, ho, hw]
  | cons cur rest ih =>
    intro o last hb ho hw
    by_cases h1 : o.Filled < o.Amount
    · cases h2 : stops o cur with
      | true =>
        rw [tradeLoop_stop o last cur rest h2]
        exact ⟨⟨ho, hw⟩, hb, by simp⟩
      | false =>
        have hcur := hb cur (List.mem_cons_self _ _)
        have hdial := dialAmount_eq_min o cur ho hw.2.1 hcur.1 hcur.2.2.1
        have hcb := hcur.1
        unfold Order.Bounded at hcb
        have hob := ho
        unfold Order.Bounded at hob
        have hd0 : 0 ≤ dialAmount o cur := by
          rw [hdial]; unfold Order.remaining; omega
        have hdo : dialAmount o cur ≤ o.remaining := by
          rw [hdial]; unfold Order.remaining; omega
        have hdc : dialAmount o cur ≤ cur.remaining := by
          rw [hdial]; unfold Order.remaining; omega
        have hcur1 : (cur.credit (dialAmount o cur) (Rat.Mul (dialAmount o cur) cur.Price)).Bounded ∧
            (cur.credit (dialAmount o cur) (Rat.Mul (dialAmount o cur) cur.Price)).WF :=
          ⟨credit_Bounded _ _ _ hcur.1 hcur.2.2.1 hd0 hdc, credit_WF _ _ _ hcur.2⟩
        obtain ⟨hro, hrf, hrt⟩ :=
          ih (o.credit (dialAmount o cur) (Rat.Mul (dialAmount o cur) cur.Price)) cur.Price
            (fun x hx => hb x (List.mem_cons_of_mem _ hx))
            (credit_Bounded _ _ _ ho hw.2.1 hd0 hdo) (credit_WF _ _ _ hw)
        rw [tradeLoop_step o last cur rest h1 h2]
        refine ⟨hro, ?_, ?_⟩
        · intro x hx
          simp only at hx
          split at hx
          · exact hrf x hx
          · rcases List.mem_cons.1 hx with rfl | hx
            · exact hcur1
            · exact hrf x hx
        · intro x hx
          rcases List.mem_cons.1 hx with rfl | hx
          · exact hcur1
          · exact hrt x hx
    · rw [tradeLoop_full o last _ h1]
      exact ⟨⟨ho, hw⟩, hb, by simp⟩

/-- One `Trade` call keeps the book within the fill bounds and returns
orders within them. -/
theorem Trade_bounds (b : Book) (o : Order) (hb : b.Bounded) (hw : b.WF) (ho : o.Bounded)
    (how : o.WF) :
    ((b.Trade o).book.Bounded ∧ (b.Trade o).book.WF) ∧
    (∀ l, (b.Trade o).updated = some l → ∀ x ∈ l, x.Bounded) := by
  unfold Book.Bounded Book.WF at *
  by_cases ht : o.Typ = OrderType.Ask
  · obtain ⟨hro, hrf, hrt⟩ := tradeLoop_bounds b.bids o b.last
      (fun x hx => ⟨hb.1 x hx, hw.1 x hx⟩) ho how
    have hown : ∀ x ∈ (b.Trade o).book.asks, x.Bounded ∧ x.WF := by
      intro x hx
      simp only [Book.Trade, ht, if_true] at hx
      split at hx
      · rcases mem_Put _ _ _ _ hx with rfl | hx
        · exact hro
        · exact ⟨hb.2 x hx, hw.2 x hx⟩
      · exact ⟨hb.2 x hx, hw.2 x hx⟩
    have hopp : (b.Trade o).book.bids = (tradeLoop o b.last b.bids).fill := by
      simp [Book.Trade, ht]
    refine ⟨⟨⟨?_, fun x hx => (hown x hx).1⟩, ⟨?_, fun x hx => (hown x hx).2⟩⟩, ?_⟩
    · rw [hopp]; exact fun x hx => (hrf x hx).1
    · rw [hopp]; exact fun x hx => (hrf x hx).2
    · intro l hl x hx
      simp only [Book.Trade, ht, if_true] at hl
      split at hl
      · cases hl
        rcases List.mem_cons.1 hx with rfl | hx
        · exact hro.1
        · exact (hrt x hx).1
      · cases hl
  · obtain ⟨hro, hrf, hrt⟩ := tradeLoop_bounds b.asks o b.last
      (fun x hx => ⟨hb.2 x hx, hw.2 x hx⟩) ho how
    have hown : ∀ x ∈ (b.Trade o).book.bids, x.Bounded ∧ x.WF := by
      intro x hx
      simp only [Book.Trade, ht, if_false] at hx
      split at hx
      · rcases mem_Put _ _ _ _ hx with rfl | hx
        · exact hro
        · exact ⟨hb.1 x hx, hw.1 x hx⟩
      · exact ⟨hb.1 x hx, hw.1 x hx⟩
    have hopp : (b.Trade o).book.asks = (tradeLoop o b.last b.asks).fill := by
      simp [Book.Trade, ht]
    refine ⟨⟨⟨fun x hx => (hown x hx).1, ?_⟩, ⟨fun x hx => (hown x hx).2, ?_⟩⟩, ?_⟩
    · rw [hopp]; exact fun x hx => (hrf x hx).1
    · rw [hopp]; exact fun x hx => (hrf x hx).2
    · intro l hl x hx
      simp only [Book.Trade, ht, if_false] at hl
      split at hl
      · cases hl
        rcases List.mem_cons.1 hx with rfl | hx
        · exact hro.1
        · exact (hrt x hx).1
      · cases hl

theorem Fresh_Bounded (o : Order) (h : o.Fresh) : o.Bounded := by
  obtain ⟨-, h1, h2, -⟩ := h
  unfold Order.Bounded
  omega

/-- A sequence of `Trade` calls with fresh orders keeps the book within the
fill bounds. -/
theorem trades_bounds (os : List Order) :
    ∀ b : Book, b.Bounded → b.WF → (∀ x ∈ os, x.Fresh) →
      (b.trades os).Bounded ∧ (b.trades os).WF := by
  induction os with
  | nil => intro b hb hw _; exact ⟨hb, hw⟩
  | cons o os ih =>
    intro b hb hw hos
    have ho := hos o (List.mem_cons_self _ _)
    have h1 := (Trade_bounds b o hb hw (Fresh_Bounded o ho) ho.1).1
    exact ih _ h1.1 h1.2 (fun x hx => hos x (List.mem_cons_of_mem _ hx))

/-- C4 (fill bounds invariant). After any sequence `os` of `Trade` calls on
a new book followed by a call `Trade(o)`, every incoming order having
`int64` fields, `amount > 0`, `filled = 0` and `money = 0`, every resting
order of both sides and every order of the returned slice satisfies
`0 <= filled <= amount`. -/
theorem Trade_fill_bounds (os : List Order) (o : Order) (hos : ∀ x ∈ os, x.Fresh)
    (ho : o.Fresh) :
    (∀ x ∈ ((New.trades os).Trade o).book.bids, x.Bounded) ∧
    (∀ x ∈ ((New.trades os).Trade o).book.asks, x.Bounded) ∧
    (∀ l, ((New.trades os).Trade o).updated = some l → ∀ x ∈ l, x.Bounded) := by
  have hnew : New.Bounded ∧ New.WF := by
    unfold Book.Bounded Book.WF New
    simp
  have hb := trades_bounds os New hnew.1 hnew.2 hos
  have h := Trade_bounds (New.trades os) o hb.1 hb.2 (Fresh_Bounded o ho) ho.1
  exact ⟨h.1.1.1, h.1.1.2, h.2⟩

/-- Witness of `Trade_fill_bounds` on the calls of `TestBidAskChain`. -/
theorem Trade_fill_bounds_witness :
    (∀ x ∈ chainOrders, x.Fresh) ∧ chainAsk.Fresh ∧
    (∀ x ∈ ((New.trades chainOrders).Trade chainAsk).book.bids, x.Bounded) ∧
    (∀ x ∈ ((New.trades chainOrders).Trade chainAsk).book.asks, x.Bounded) ∧
    (∀ l, ((New.trades chainOrders).Trade chainAsk).updated = some l →
      ∀ x ∈ l, x.Bounded) :=
  ⟨by decide, by decide, Trade_fill_bounds chainOrders chainAsk (by decide) (by decide)⟩

/-! ## Conservation -/

theorem Rat_sum_eq (l : List Int) : Rat.sum l = wrap l.sum := by
  induction l with
  | nil => simp [Rat.sum, wrap]
  | cons x xs ih =>
    simp only [Rat.sum, List.sum_cons, Rat.add, ih]
    rw [wrap_eq_iff]
    unfold wrap
    omega

/-- The loop credits the same matches to the incoming order and to the
resting orders it touches. -/
theorem tradeLoop_matches (l : List Order) :
    ∀ (o : Order) (last : Int),
      ∃ (ms : List (Order × Int)) (rest : List Order),
        l = ms.map Prod.fst ++ rest ∧
        (tradeLoop o last l).touched = ms.map (fun m => creditMatch m m.1) ∧
        (tradeLoop o last l).o = ms.foldl (fun x m => creditMatch m x) o ∧
        MatchQuantities o ms := by
  induction l with
  | nil =>
    intro o last
    exact ⟨[], [], rfl, rfl, rfl, trivial⟩
  | cons cur rest ih =>
    intro o last
    by_cases h1 : o.Filled < o.Amount
    · cases h2 : stops o cur with
      | true =>
        rw [tradeLoop_stop o last cur rest h2]
        exact ⟨[], cur :: rest, rfl, rfl, rfl, trivial⟩
      | false =>
        obtain ⟨ms, rest1, hsplit, ht, ho, hq⟩ :=
          ih (o.credit (dialAmount o cur) (Rat.Mul (dialAmount o cur) cur.Price)) cur.Price
        rw [tradeLoop_step o last cur rest h1 h2]
        refine ⟨(cur, dialAmount o cur) :: ms, rest1, ?_, ?_, ?_, ?_⟩
        · simp [hsplit]
        · simp only [List.map_cons, ht]
          rfl
        · simp only [List.foldl_cons, ho]
          rfl
        · exact ⟨rfl, hq⟩
    · rw [tradeLoop_full o last _ h1]
      exact ⟨[], cur :: rest, rfl, rfl, rfl, trivial⟩

theorem foldl_creditMatch_filled (ms : List (Order × Int)) :
    ∀ x : Order,
      (ms.foldl (fun x m => creditMatch m x) x).Filled % 18446744073709551616 =
        (x.Filled + (ms.map Prod.snd).sum) % 18446744073709551616 := by
  induction ms with
  | nil => intro x; simp
  | cons m ms ih =>
    intro x
    simp only [List.foldl_cons, List.map_cons, List.sum_cons]
    rw [ih]
    simp only [creditMatch, Order.credit, Rat.add, wrap]
    omega

theorem foldl_creditMatch_money (ms : List (Order × Int)) :
    ∀ x : Order,
      (ms.foldl (fun x m => creditMatch m x) x).Money % 18446744073709551616 =
        (x.Money + (ms.map (fun m => Rat.Mul m.2 m.1.Price)).sum) %
          18446744073709551616 := by
  induction ms with
  | nil => intro x; simp
  | cons m ms ih =>
    intro x
    simp only [List.foldl_cons, List.map_cons, List.sum_cons]
    rw [ih]
    simp only [creditMatch, Order.credit, Rat.add, wrap]
    omega

theorem sum_increase_filled (ms : List (Order × Int)) :
    (ms.map (fun m => Rat.sub (creditMatch m m.1).Filled m.1.Filled)).sum %
        18446744073709551616 =
      (ms.map Prod.snd).sum % 18446744073709551616 := by
  induction ms with
  | nil => simp
  | cons m ms ih =>
    simp only [List.map_cons, List.sum_cons]
    simp only [creditMatch, Order.credit, Rat.add, Rat.sub, wrap] at ih ⊢
    omega

theorem sum_increase_money (ms : List (Order × Int)) :
    (ms.map (fun m => Rat.sub (creditMatch m m.1).Money m.1.Money)).sum %
        18446744073709551616 =
      (ms.map (fun m => Rat.Mul m.2 m.1.Price)).sum % 18446744073709551616 := by
  induction ms with
  | nil => simp
  | cons m ms ih =>
    simp only [List.map_cons, List.sum_cons]
    simp only [creditMatch, Order.credit, Rat.add, Rat.sub, wrap] at ih ⊢
    omega

/-- C5 (conservation in Trade). Every `Trade` call is a list `ms` of
matches, one per touched resting order, taken along a leading run of the
opposing side. The quantity of each match is the `dialAmount` of the
incoming order, as it stands after the earlier matches, against the resting
order. Each touched order is returned with that quantity added to its
`Filled` and `Mul(quantity, its own price)` added to its `Money`, all other
fields kept; the incoming order is returned with the same quantities added
to its `Filled` and the same amounts `Mul(quantity, resting price)` added to
its `Money`. So the increase of the incoming order's `Filled` (of its
`Money`) equals the sum of the increases of the `Filled` (of the `Money`) of
the touched resting orders, all in `int64` arithmetic. On the book of
`TestBidAskChain` the Ask at 20 for 300 takes 100 from the bid at 10 and 100
from the bid at 15: the bids get the money 1000 and 1500, the Ask 2500, none
valued at the Ask's price 20. -/
theorem Trade_conservation (b : Book) (o : Order) :
    (∃ (ms : List (Order × Int)) (rest : List Order),
      b.opposing o = ms.map Prod.fst ++ rest ∧
      MatchQuantities o ms ∧
      (b.Trade o).touched = ms.map (fun m => creditMatch m m.1) ∧
      (b.Trade o).o = ms.foldl (fun x m => creditMatch m x) o ∧
      Rat.sub (b.Trade o).o.Filled o.Filled =
        Rat.sum (ms.map (fun m => Rat.sub (creditMatch m m.1).Filled m.1.Filled)) ∧
      Rat.sub (b.Trade o).o.Money o.Money =
        Rat.sum (ms.map (fun m => Rat.sub (creditMatch m m.1).Money m.1.Money))) ∧
    (chainBook.Trade chainAsk).updated =
      some [⟨5, OrderType.Ask, 20 * Div, 300 * Div, 200 * Div, 2500 * Div⟩,
            ⟨1, OrderType.Bid, 10 * Div, 100 * Div, 100 * Div, 1000 * Div⟩,
            ⟨2, OrderType.Bid, 15 * Div, 100 * Div, 100 * Div, 1500 * Div⟩] := by
  refine ⟨?_, by decide⟩
  obtain ⟨ms, rest, hsplit, ht, ho, hq⟩ := tradeLoop_matches (b.opposing o) o b.last
  rw [Trade_touched, Trade_o]
  refine ⟨ms, rest, hsplit, hq, ht, ho, ?_, ?_⟩
  · rw [ho, Rat_sum_eq]
    unfold Rat.sub
    rw [wrap_eq_iff]
    have h1 := foldl_creditMatch_filled ms o
    have h2 := sum_increase_filled ms
    unfold Rat.sub at h2
    omega
  · rw [ho, Rat_sum_eq]
    unfold Rat.sub
    rw [wrap_eq_iff]
    have h1 := foldl_creditMatch_money ms o
    have h2 := sum_increase_money ms
    unfold Rat.sub at h2
    omega

/-- Witness of `Trade_conservation` on the book of `TestBidAskChain`: the
two matches are 100 against the bid at 10 and 100 against the bid at 15; the
Ask gains 200 in `Filled` and 2500 in `Money`, the two bids together the
same. -/
theorem Trade_conservation_witness :
    MatchQuantities chainAsk
      [(⟨1, OrderType.Bid, 10 * Div, 100 * Div, 0, 0⟩, 100 * Div),
       (⟨2, OrderType.Bid, 15 * Div, 100 * Div, 0, 0⟩, 100 * Div)] ∧
    (chainBook.Trade chainAsk).touched =
      [⟨1, OrderType.Bid, 10 * Div, 100 * Div, 100 * Div, 1000 * Div⟩,
       ⟨2, OrderType.Bid, 15 * Div, 100 * Div, 100 * Div, 1500 * Div⟩] ∧
    Rat.sub (chainBook.Trade chainAsk).o.Filled chainAsk.Filled = 200 * Div ∧
    Rat.sub (chainBook.Trade chainAsk).o.Money chainAsk.Money = 2500 * Div ∧
    Rat.sum [Rat.sub (1000 * Div) 0, Rat.sub (1500 * Div) 0] = 2500 * Div ∧
    ∃ (ms : List (Order × Int)) (rest : List Order),
      chainBook.opposing chainAsk = ms.map Prod.fst ++ rest ∧
      MatchQuantities chainAsk ms ∧
      (chainBook.Trade chainAsk).touched = ms.map (fun m => creditMatch m m.1) ∧
      (chainBook.Trade chainAsk).o = ms.foldl (fun x m => creditMatch m x) chainAsk ∧
      Rat.sub (chainBook.Trade chainAsk).o.Filled chainAsk.Filled =
        Rat.sum (ms.map (fun m => Rat.sub (creditMatch m m.1).Filled m.1.Filled)) ∧
      Rat.sub (chainBook.Trade chainAsk).o.Money chainAsk.Money =
        Rat.sum (ms.map (fun m => Rat.sub (creditMatch m m.1).Money m.1.Money)) :=
  ⟨by simp only [MatchQuantities]; decide, by decide, by decide, by decide, by decide,
    (Trade_conservation chainBook chainAsk).1⟩

/-! ## Return contract -/

/-- C6 (return contract of Trade). For an incoming order with
`filled < amount`: `Trade` returns `nil` exactly when the loop touched no
resting order, which happens exactly when the opposing side is empty or its
first order fails the crossing test; otherwise it returns the incoming order
followed by the touched resting orders in the order they were matched. -/
theorem Trade_return_contract (b : Book) (o : Order) (h : o.Filled < o.Amount) :
    ((b.Trade o).updated = none ↔ (tradeLoop o b.last (b.opposing o)).touched = []) ∧
    ((tradeLoop o b.last (b.opposing o)).touched = [] ↔
      (b.opposing o = [] ∨
        ∃ c rest, b.opposing o = c :: rest ∧ crosses o c = false)) ∧
    ((tradeLoop o b.last (b.opposing o)).touched ≠ [] →
      (b.Trade o).updated =
        some ((b.Trade o).o :: (tradeLoop o b.last (b.opposing o)).touched)) := by
  refine ⟨?_, ?_, ?_⟩
  · rw [Trade_updated]
    by_cases ht : (tradeLoop o b.last (b.opposing o)).touched = [] <;> simp [ht]
  · cases hl : b.opposing o with
    | nil => simp [tradeLoop]
    | cons c rest =>
      cases h2 : stops o c with
      | true =>
        rw [tradeLoop_stop o b.last c rest h2]
        simp [crosses_eq_not_stops, h2]
      | false =>
        rw [tradeLoop_step o b.last c rest h h2]
        simp [crosses_eq_not_stops, h2]
  · intro ht
    rw [Trade_updated, Trade_o]
    simp [ht]

/-- Witness of `Trade_return_contract` on the book of `TestBidAskChain`. -/
theorem Trade_return_contract_witness :
    chainAsk.Filled < chainAsk.Amount ∧
    ((chainBook.Trade chainAsk).updated = none ↔
      (tradeLoop chainAsk chainBook.last (chainBook.opposing chainAsk)).touched = []) :=
  ⟨by decide, (Trade_return_contract chainBook chainAsk (by decide)).1⟩

/-! ## Resting of the remainder -/

theorem asksLess_priceOrder : PriceOrder asksLess where
  eq_of_not_less := by
    intro a b h1 h2
    simp only [asksLess, decide_eq_false_iff_not] at h1 h2
    omega
  not_less_of_eq := by
    intro a b h
    simp only [asksLess, decide_eq_false_iff_not]
    omega
  congr_left := by
    intro a b c h
    simp only [asksLess, h]
  trans_after := by
    intro a b c h1 h2
    simp only [asksLess, decide_eq_false_iff_not, decide_eq_true_eq] at h1 h2 ⊢
    omega

theorem bidsLess_priceOrder : PriceOrder bidsLess where
  eq_of_not_less := by
    intro a b h1 h2
    simp only [bidsLess, decide_eq_false_iff_not] at h1 h2
    omega
  not_less_of_eq := by
    intro a b h
    simp only [bidsLess, decide_eq_false_iff_not]
    omega
  congr_left := by
    intro a b c h
    simp only [bidsLess, h]
  trans_after := by
    intro a b c h1 h2
    simp only [bidsLess, decide_eq_false_iff_not, decide_eq_true_eq] at h1 h2 ⊢
    omega

theorem ownLess_priceOrder (o : Order) : PriceOrder (ownLess o) := by
  unfold ownLess
  split
  · exact asksLess_priceOrder
  · exact bidsLess_priceOrder

/-- Insertion by `Put` places the order into a ranked side without touching the other
entries, before the first entry it ranks strictly before. -/
theorem Put_split (less : Order → Order → Bool) (hp : PriceOrder less) (o : Order)
    (l : List Order) (hr : Ranked less l) :
    ∃ pre post, l = pre ++ post ∧ Put less l o = pre ++ o :: post ∧
      (∀ x ∈ pre, less o x = false) ∧ (∀ x ∈ post, less o x = true) := by
  induction l with
  | nil => exact ⟨[], [], rfl, rfl, by simp, by simp⟩
  | cons y ys ih =>
    cases hy : less o y with
    | true =>
      refine ⟨[], y :: ys, rfl, by simp [Put, hy], by simp, ?_⟩
      intro x hx
      rcases List.mem_cons.1 hx with rfl | hx
      · exact hy
      · exact hp.trans_after o y x hy ((List.pairwise_cons.1 hr).1 x hx)
    | false =>
      obtain ⟨pre, post, hsplit, hput, hpre, hpost⟩ := ih (List.pairwise_cons.1 hr).2
      refine ⟨y :: pre, post, by simp [hsplit], by simp [Put, hy, hput], ?_, hpost⟩
      intro x hx
      rcases List.mem_cons.1 hx with rfl | hx
      · exact hy
      · exact hpre x hx

/-- The loop writes only `Filled` and `Money` of the incoming order. -/
theorem tradeLoop_o_sameOrder (l : List Order) :
    ∀ (o : Order) (last : Int), sameOrder o (tradeLoop o last l).o := by
  intro o last
  obtain ⟨ms, -, -, -, ho, -⟩ := tradeLoop_matches l o last
  rw [ho]
  clear ho
  induction ms generalizing o with
  | nil => simp [sameOrder]
  | cons m ms ih =>
    have h1 := ih (creditMatch m o)
    simp only [List.foldl_cons]
    unfold sameOrder at *
    simp only [creditMatch, Order.credit] at h1 ⊢
    exact h1

/-- C7 (resting of the remainder). With the incoming order's own side in
ranking order: if `filled < amount` holds for the incoming order when
`Trade` returns, the own side afterwards is the own side before with the
incoming order inserted at one place, the entries before and after it
unchanged and in their order, and no entry after it has the incoming
order's price; otherwise (`filled = amount` included) the own side is
unchanged and the order is not inserted. -/
theorem Trade_rests_remainder (b : Book) (o : Order)
    (hs : Ranked (ownLess o) (b.own o)) :
    ((b.Trade o).o.Filled < (b.Trade o).o.Amount →
      ∃ pre post, b.own o = pre ++ post ∧
        (b.Trade o).book.own o = pre ++ (b.Trade o).o :: post ∧
        ∀ x ∈ post, x.Price ≠ o.Price) ∧
    (¬ ((b.Trade o).o.Filled < (b.Trade o).o.Amount) →
      (b.Trade o).book.own o = b.own o) := by
  rw [Trade_own, Trade_o]
  refine ⟨?_, ?_⟩
  · intro h
    obtain ⟨pre, post, hsplit, hput, -, hpost⟩ :=
      Put_split (ownLess o) (ownLess_priceOrder o)
        (tradeLoop o b.last (b.opposing o)).o (b.own o) hs
    refine ⟨pre, post, hsplit, by simp [h, hput], ?_⟩
    intro x hx hprice
    have hsame := tradeLoop_o_sameOrder (b.opposing o) o b.last
    have h1 := hpost x hx
    have h2 := (ownLess_priceOrder o).not_less_of_eq
      (tradeLoop o b.last (b.opposing o)).o x (by rw [hprice]; exact hsame.2.2.1.symm)
    rw [h1] at h2
    cases h2
  · intro h
    simp [h]

/-- Witness of `Trade_rests_remainder` on the book of `TestBidAskChain`:
the Ask for 300 at 20 rests, with 100 unfilled, in front of the ask at 5. -/
theorem Trade_rests_remainder_witness :
    Ranked (ownLess chainAsk) (chainBook.own chainAsk) ∧
    (chainBook.Trade chainAsk).o.Filled < (chainBook.Trade chainAsk).o.Amount ∧
    (chainBook.Trade chainAsk).book.asks =
      [(chainBook.Trade chainAsk).o, ⟨4, OrderType.Ask, 5 * Div, 100 * Div, 0, 0⟩] ∧
    ∃ pre post, chainBook.own chainAsk = pre ++ post ∧
      (chainBook.Trade chainAsk).book.own chainAsk =
        pre ++ (chainBook.Trade chainAsk).o :: post ∧
      ∀ x ∈ post, x.Price ≠ chainAsk.Price :=
  ⟨by decide, by decide, by decide,
    (Trade_rests_remainder chainBook chainAsk (by decide)).1 (by decide)⟩

/-! ## `Cancel` -/

theorem Cancel_removed (b : Book) (o : Order) :
    (b.Cancel o).removed = (DelIf (ownLess o) (b.own o) o (sameID o)).1 := by
  unfold Book.Cancel Book.own ownLess sameID
  split <;> rfl

theorem Cancel_own (b : Book) (o : Order) :
    (b.Cancel o).book.own o = (DelIf (ownLess o) (b.own o) o (sameID o)).2 := by
  unfold Book.Cancel Book.own ownLess sameID
  split <;> simp [*]

theorem Cancel_opposing (b : Book) (o : Order) :
    (b.Cancel o).book.opposing o = b.opposing o := by
  unfold Book.Cancel Book.opposing
  split <;> simp [*]

theorem Cancel_last (b : Book) (o : Order) : (b.Cancel o).book.last = b.last := by
  unfold Book.Cancel
  split <;> rfl

/-- A book is determined by its two sides, seen from an order, and its last
price. -/
theorem Book_ext_sides (b1 b2 : Book) (o : Order) (h1 : b1.own o = b2.own o)
    (h2 : b1.opposing o = b2.opposing o) (h3 : b1.last = b2.last) : b1 = b2 := by
  cases b1
  cases b2
  unfold Book.own at h1
  unfold Book.opposing at h2
  by_cases ht : o.Typ = OrderType.Ask
  · simp only [ht, if_true] at h1 h2
    simp_all
  · simp only [ht, if_false] at h1 h2
    simp_all

/-- Removal by `DelIf` either finds nothing and leaves the list as it is, or removes
one entry, of the price looked for and satisfying the predicate, and keeps
the others in place. -/
theorem DelIf_cases (less : Order → Order → Bool) (o : Order) (p : Order → Bool)
    (l : List Order) :
    ((DelIf less l o p).1 = none ∧ (DelIf less l o p).2 = l) ∨
    ∃ pre x post, l = pre ++ x :: post ∧ (DelIf less l o p).1 = some x ∧
      (DelIf less l o p).2 = pre ++ post ∧ less x o = false ∧ less o x = false ∧
      p x = true := by
  induction l with
  | nil => exact Or.inl ⟨rfl, rfl⟩
  | cons y ys ih =>
    have hskip : (DelIf less ys o p).1 = none ∧ (DelIf less ys o p).2 = ys ∨
        (∃ pre x post, ys = pre ++ x :: post ∧ (DelIf less ys o p).1 = some x ∧
          (DelIf less ys o p).2 = pre ++ post ∧ less x o = false ∧ less o x = false ∧
          p x = true) →
        ((DelIf less ys o p).1 = none ∧ y :: (DelIf less ys o p).2 = y :: ys) ∨
        ∃ pre x post, y :: ys = pre ++ x :: post ∧ (DelIf less ys o p).1 = some x ∧
          y :: (DelIf less ys o p).2 = pre ++ post ∧ less x o = false ∧
          less o x = false ∧ p x = true := by
      rintro (⟨h1, h2⟩ | ⟨pre, x, post, hsplit, h1, h2, h3, h4, h5⟩)
      · exact Or.inl ⟨h1, by rw [h2]⟩
      · exact Or.inr ⟨y :: pre, x, post, by simp [hsplit], h1, by simp [h2], h3, h4, h5⟩
    cases hyo : less y o with
    | true =>
      simp only [DelIf, hyo, if_true]
      exact hskip ih
    | false =>
      cases hoy : less o y with
      | true =>
        simp only [DelIf, hyo, hoy, if_true]
        exact Or.inl ⟨rfl, rfl⟩
      | false =>
        cases hpy : p y with
        | true =>
          simp only [DelIf, hyo, hoy, hpy, if_true]
          exact Or.inr ⟨[], y, ys, rfl, rfl, rfl, hyo, hoy, hpy⟩
        | false =>
          simp only [DelIf, hyo, hoy, hpy]
          exact hskip ih

/-- On a ranked side `DelIf` finds an entry of the price looked for that
satisfies the predicate whenever there is one. -/
theorem DelIf_finds (less : Order → Order → Bool) (hp : PriceOrder less) (o : Order)
    (p : Order → Bool) (l : List Order) (hr : Ranked less l)
    (hex : ∃ x ∈ l, x.Price = o.Price ∧ p x = true) :
    (DelIf less l o p).1 ≠ none := by
  induction l with
  | nil =>
    obtain ⟨x, hx, -⟩ := hex
    cases hx
  | cons y ys ih =>
    obtain ⟨x, hx, hprice, hpx⟩ := hex
    have hrest : x ∈ ys → (DelIf less ys o p).1 ≠ none :=
      fun hxs => ih (List.pairwise_cons.1 hr).2 ⟨x, hxs, hprice, hpx⟩
    cases hyo : less y o with
    | true =>
      simp only [DelIf, hyo, if_true]
      rcases List.mem_cons.1 hx with rfl | hxs
      · have := hp.not_less_of_eq x o hprice
        rw [hyo] at this
        cases this
      · exact hrest hxs
    | false =>
      cases hoy : less o y with
      | true =>
        exfalso
        rcases List.mem_cons.1 hx with rfl | hxs
        · have := hp.not_less_of_eq o x hprice.symm
          rw [hoy] at this
          cases this
        · have h1 := (List.pairwise_cons.1 hr).1 x hxs
          have h2 := hp.congr_left x o y hprice
          rw [h1, hoy] at h2
          cases h2
      | false =>
        cases hpy : p y with
        | true =>
          simp [DelIf, hyo, hoy, hpy]
        | false =>
          simp only [DelIf, hyo, hoy, hpy]
          rcases List.mem_cons.1 hx with rfl | hxs
          · rw [hpx] at hpy
            cases hpy
          · exact hrest hxs

/-- Removal by `DelIf` finds nothing when no entry satisfies the predicate. -/
theorem DelIf_none (less : Order → Order → Bool) (o : Order) (p : Order → Bool)
    (l : List Order) (h : ∀ x ∈ l, p x = false) :
    DelIf less l o p = (none, l) := by
  rcases DelIf_cases less o p l with ⟨h1, h2⟩ | ⟨pre, x, post, hsplit, -, -, -, -, hpx⟩
  · exact Prod.ext h1 h2
  · have := h x (by rw [hsplit]; simp)
    rw [hpx] at this
    cases this

/-- C8 (Cancel succeeds iff side, price and identifier match). With the side
named by `ref.Typ` in ranking order: if that side holds an entry with
`price = ref.Price` and `ID = ref.ID`, `Cancel(ref)` removes such an entry
from the side and returns it as it is stored there (not the reference), the
other entries, the other side and the last price being kept; if the side
holds no such entry (the identifier being absent, or present only under
another price), `Cancel(ref)` returns `nil` and the book is unchanged. -/
theorem Cancel_iff_match (b : Book) (ref : Order)
    (hs : Ranked (ownLess ref) (b.own ref)) :
    ((∃ x ∈ b.own ref, x.Price = ref.Price ∧ x.ID = ref.ID) →
      ∃ pre x post, b.own ref = pre ++ x :: post ∧
        x.Price = ref.Price ∧ x.ID = ref.ID ∧
        (b.Cancel ref).removed = some x ∧
        (b.Cancel ref).book.own ref = pre ++ post ∧
        (b.Cancel ref).book.opposing ref = b.opposing ref ∧
        (b.Cancel ref).book.last = b.last) ∧
    ((¬ ∃ x ∈ b.own ref, x.Price = ref.Price ∧ x.ID = ref.ID) →
      (b.Cancel ref).removed = none ∧ (b.Cancel ref).book = b) := by
  have hp := ownLess_priceOrder ref
  rw [Cancel_removed, Cancel_own, Cancel_opposing, Cancel_last]
  rcases DelIf_cases (ownLess ref) ref (sameID ref) (b.own ref) with
    ⟨h1, h2⟩ | ⟨pre, x, post, hsplit, h1, h2, h3, h4, h5⟩
  · refine ⟨?_, ?_⟩
    · rintro ⟨x, hx, hprice, hid⟩
      exact absurd h1 (DelIf_finds (ownLess ref) hp ref (sameID ref) (b.own ref) hs
        ⟨x, hx, hprice, by simp [sameID, hid]⟩)
    · intro _
      refine ⟨h1, Book_ext_sides _ _ ref ?_ (Cancel_opposing b ref) (Cancel_last b ref)⟩
      rw [Cancel_own, h2]
  · have hprice : x.Price = ref.Price := hp.eq_of_not_less x ref h3 h4
    have hid : x.ID = ref.ID := by simpa [sameID] using h5
    refine ⟨?_, ?_⟩
    · intro _
      exact ⟨pre, x, post, hsplit, hprice, hid, h1, h2, rfl, rfl⟩
    · intro hno
      exact absurd ⟨x, by rw [hsplit]; simp, hprice, hid⟩ hno

/-- Witness of `Cancel_iff_match` on the three Bids of `TestCancel`: the
reference with ID 2 at price 10 removes the stored Bid with amount 100. -/
theorem Cancel_iff_match_witness :
    Ranked (ownLess cancelRef) ((New.trades cancelOrders).own cancelRef) ∧
    (∃ x ∈ (New.trades cancelOrders).own cancelRef,
      x.Price = cancelRef.Price ∧ x.ID = cancelRef.ID) ∧
    ((New.trades cancelOrders).Cancel cancelRef).removed =
      some ⟨2, OrderType.Bid, 10 * Div, 100 * Div, 0, 0⟩ ∧
    ∃ pre x post, (New.trades cancelOrders).own cancelRef = pre ++ x :: post ∧
      x.Price = cancelRef.Price ∧ x.ID = cancelRef.ID ∧
      ((New.trades cancelOrders).Cancel cancelRef).removed = some x ∧
      ((New.trades cancelOrders).Cancel cancelRef).book.own cancelRef = pre ++ post ∧
      ((New.trades cancelOrders).Cancel cancelRef).book.opposing cancelRef =
        (New.trades cancelOrders).opposing cancelRef ∧
      ((New.trades cancelOrders).Cancel cancelRef).book.last =
        (New.trades cancelOrders).last :=
  ⟨by decide, by decide, by decide,
    (Cancel_iff_match (New.trades cancelOrders) cancelRef (by decide)).1 (by decide)⟩

/-- C9 (Cancel is idempotent). In a book whose identifiers are unique
within each side, if `Cancel(ref)` succeeds, then a second `Cancel(ref)`
with the same reference, right after it, returns `nil` and leaves the book
unchanged. -/
theorem Cancel_idempotent (b : Book) (ref : Order) (hu : b.UniqueIDs)
    (h : (b.Cancel ref).removed ≠ none) :
    ((b.Cancel ref).book.Cancel ref).removed = none ∧
    ((b.Cancel ref).book.Cancel ref).book = (b.Cancel ref).book := by
  have hown : ((b.own ref).map Order.ID).Nodup := by
    unfold Book.own
    split
    · exact hu.2
    · exact hu.1
  rw [Cancel_removed] at h
  rcases DelIf_cases (ownLess ref) ref (sameID ref) (b.own ref) with
    ⟨h1, -⟩ | ⟨pre, x, post, hsplit, -, h2, -, -, h5⟩
  · exact absurd h1 h
  · have hid : x.ID = ref.ID := by simpa [sameID] using h5
    rw [hsplit, List.map_append, List.map_cons] at hown
    have hnot := (List.nodup_cons.1 (List.nodup_middle.1 hown)).1
    have hnone : ∀ y ∈ pre ++ post, sameID ref y = false := by
      intro y hy
      simp only [sameID, decide_eq_false_iff_not]
      intro hy2
      apply hnot
      rw [← List.map_append, hid, ← hy2]
      exact List.mem_map_of_mem _ hy
    have hsecond : DelIf (ownLess ref) ((b.Cancel ref).book.own ref) ref (sameID ref) =
        (none, (b.Cancel ref).book.own ref) := by
      rw [Cancel_own, h2]
      exact DelIf_none _ _ _ _ hnone
    refine ⟨?_, ?_⟩
    · rw [Cancel_removed, hsecond]
    · refine Book_ext_sides _ _ ref ?_ (Cancel_opposing _ ref) (Cancel_last _ ref)
      rw [Cancel_own ((b.Cancel ref).book), hsecond]

/-- Witness of `Cancel_idempotent` on the end of `TestCancel`: the resting
Ask with ID 5 is cancelled, and cancelling it again returns `nil`. -/
theorem Cancel_idempotent_witness :
    ((((New.trades cancelOrders).Cancel cancelRef).book.Trade sweepAsk).book).UniqueIDs ∧
    (((((New.trades cancelOrders).Cancel cancelRef).book.Trade sweepAsk).book).Cancel
      sweepRef).removed =
        some ⟨5, OrderType.Ask, 10 * Div, 300 * Div, 200 * Div, 2000 * Div⟩ ∧
    ((((((New.trades cancelOrders).Cancel cancelRef).book.Trade sweepAsk).book).Cancel
      sweepRef).book.Cancel sweepRef).removed = none ∧
    ((((((New.trades cancelOrders).Cancel cancelRef).book.Trade sweepAsk).book).Cancel
      sweepRef).book.Cancel sweepRef).book =
      (((((New.trades cancelOrders).Cancel cancelRef).book.Trade sweepAsk).book).Cancel
        sweepRef).book :=
  ⟨by decide, by decide,
    Cancel_idempotent
      ((((New.trades cancelOrders).Cancel cancelRef).book.Trade sweepAsk).book) sweepRef
      (by decide) (by decide)⟩

/-- C10 (frame of Cancel). A successful `Cancel(ref)` removes exactly one
entry from the side named by `ref.Typ`, the entries before and after it
keeping their fields and order, and leaves the other side and the last
traded price unchanged; so with the three Bids of `TestCancel` (IDs 1, 2, 3
at price 10, amount 100) resting, cancelling ID 2 and sweeping with an Ask
for 300 at 10 matches IDs 1 and 3 only, in that order, and the Ask rests
with 100 unfilled. -/
theorem Cancel_frame (b : Book) (ref : Order) (h : (b.Cancel ref).removed ≠ none) :
    (∃ pre x post, b.own ref = pre ++ x :: post ∧
      (b.Cancel ref).removed = some x ∧
      (b.Cancel ref).book.own ref = pre ++ post) ∧
    (b.Cancel ref).book.opposing ref = b.opposing ref ∧
    (b.Cancel ref).book.last = b.last ∧
    (((New.trades cancelOrders).Cancel cancelRef).book.Trade sweepAsk).updated =
      some [⟨5, OrderType.Ask, 10 * Div, 300 * Div, 200 * Div, 2000 * Div⟩,
            ⟨1, OrderType.Bid, 10 * Div, 100 * Div, 100 * Div, 1000 * Div⟩,
            ⟨3, OrderType.Bid, 10 * Div, 100 * Div, 100 * Div, 1000 * Div⟩] ∧
    (((New.trades cancelOrders).Cancel cancelRef).book.Trade sweepAsk).book =
      { bids := []
        asks := [⟨5, OrderType.Ask, 10 * Div, 300 * Div, 200 * Div, 2000 * Div⟩]
        last := 10 * Div } := by
  refine ⟨?_, Cancel_opposing b ref, Cancel_last b ref, by decide, by decide⟩
  rw [Cancel_removed] at h
  rw [Cancel_removed, Cancel_own]
  rcases DelIf_cases (ownLess ref) ref (sameID ref) (b.own ref) with
    ⟨h1, -⟩ | ⟨pre, x, post, hsplit, h1, h2, -, -, -⟩
  · exact absurd h1 h
  · exact ⟨pre, x, post, hsplit, h1, h2⟩

/-- Witness of `Cancel_frame` on the three Bids of `TestCancel`: cancelling
ID 2 leaves IDs 1 and 3 resting in that order. -/
theorem Cancel_frame_witness :
    ((New.trades cancelOrders).Cancel cancelRef).removed ≠ none ∧
    ((New.trades cancelOrders).Cancel cancelRef).book.bids =
      [⟨1, OrderType.Bid, 10 * Div, 100 * Div, 0, 0⟩,
       ⟨3, OrderType.Bid, 10 * Div, 100 * Div, 0, 0⟩] ∧
    ∃ pre x post, (New.trades cancelOrders).own cancelRef = pre ++ x :: post ∧
      ((New.trades cancelOrders).Cancel cancelRef).removed = some x ∧
      ((New.trades cancelOrders).Cancel cancelRef).book.own cancelRef = pre ++ post :=
  ⟨by decide, by decide,
    (Cancel_frame (New.trades cancelOrders) cancelRef (by decide)).1⟩

/-! ## Side ordering -/

theorem pairwise_of_sameOrder (Q : Order → Order → Prop)
    (hQ : ∀ a c a1 c1, sameOrder a a1 → sameOrder c c1 → Q a c → Q a1 c1)
    {l1 l2 : List Order} (h : List.Forall₂ sameOrder l1 l2) (hr : l1.Pairwise Q) :
    l2.Pairwise Q := by
  induction h with
  | nil => exact List.Pairwise.nil
  | cons hab hrest ih =>
    rw [List.pairwise_cons] at hr ⊢
    refine ⟨?_, ih hr.2⟩
    intro y hy
    obtain ⟨x, hx, hxy⟩ := forall₂_mem_right hrest hy
    exact hQ _ _ _ _ hab hxy (hr.1 x hx)

/-- The side left by the loop consists of entries of the side before, in
their order, each with its identifier, side, price and amount. -/
theorem tradeLoop_fill_image (l : List Order) :
    ∀ (o : Order) (last : Int),
      ∃ s, List.Sublist s l ∧ List.Forall₂ sameOrder s (tradeLoop o last l).fill := by
  have hrefl : ∀ l : List Order, List.Forall₂ sameOrder l l := by
    intro l
    induction l with
    | nil => exact List.Forall₂.nil
    | cons x xs ih => exact List.Forall₂.cons ⟨rfl, rfl, rfl, rfl⟩ ih
  induction l with
  | nil =>
    intro o last
    exact ⟨[], List.Sublist.refl _, by simp [tradeLoop]⟩
  | cons cur rest ih =>
    intro o last
    by_cases h1 : o.Filled < o.Amount
    · cases h2 : stops o cur with
      | true =>
        rw [tradeLoop_stop o last cur rest h2]
        exact ⟨cur :: rest, List.Sublist.refl _, hrefl _⟩
      | false =>
        obtain ⟨s, hsub, hf⟩ :=
          ih (o.credit (dialAmount o cur) (Rat.Mul (dialAmount o cur) cur.Price)) cur.Price
        rw [tradeLoop_step o last cur rest h1 h2]
        cases h3 : exceeds o cur with
        | true =>
          exact ⟨s, List.Sublist.cons _ hsub, by simpa using hf⟩
        | false =>
          refine ⟨cur :: s, List.Sublist.cons₂ _ hsub, ?_⟩
          simp only [Bool.false_eq_true, if_false]
          exact List.Forall₂.cons (credit_sameOrder _ _ _) hf
    · rw [tradeLoop_full o last _ h1]
      exact ⟨cur :: rest, List.Sublist.refl _, hrefl _⟩

theorem tradeLoop_fill_pairwise (Q : Order → Order → Prop)
    (hQ : ∀ a c a1 c1, sameOrder a a1 → sameOrder c c1 → Q a c → Q a1 c1)
    (l : List Order) (o : Order) (last : Int) (h : l.Pairwise Q) :
    (tradeLoop o last l).fill.Pairwise Q := by
  obtain ⟨s, hsub, hf⟩ := tradeLoop_fill_image l o last
  exact pairwise_of_sameOrder Q hQ hf (h.sublist hsub)

theorem tradeLoop_fill_mem (l : List Order) (o : Order) (last : Int) (x : Order)
    (hx : x ∈ (tradeLoop o last l).fill) : ∃ y ∈ l, sameOrder y x := by
  obtain ⟨s, hsub, hf⟩ := tradeLoop_fill_image l o last
  obtain ⟨y, hy, hyx⟩ := forall₂_mem_right hf hx
  exact ⟨y, hsub.subset hy, hyx⟩

theorem DelIf_sublist (less : Order → Order → Bool) (o : Order) (p : Order → Bool)
    (l : List Order) : List.Sublist (DelIf less l o p).2 l := by
  rcases DelIf_cases less o p l with ⟨-, h2⟩ | ⟨pre, x, post, hsplit, -, h2, -, -, -⟩
  · rw [h2]
  · rw [h2, hsplit]
    exact List.Sublist.append (List.Sublist.refl _) (List.sublist_cons_self _ _)

theorem ownLess_asymm (o a c : Order) (h : ownLess o a c = true) : ownLess o c a = false := by
  unfold ownLess at *
  by_cases ht : o.Typ = OrderType.Ask
  · simp only [ht, if_true, asksLess, decide_eq_true_eq, decide_eq_false_iff_not] at h ⊢
    omega
  · simp only [ht, if_false, bidsLess, decide_eq_true_eq, decide_eq_false_iff_not] at h ⊢
    omega

theorem ownLess_sameOrder (o : Order) (a c a1 c1 : Order) (ha : sameOrder a a1)
    (hc : sameOrder c c1) (h : ownLess o c a = false) : ownLess o c1 a1 = false := by
  obtain ⟨-, -, hpa, -⟩ := ha
  obtain ⟨-, -, hpc, -⟩ := hc
  unfold ownLess at *
  split at h <;> simp_all [bidsLess, asksLess]

theorem ownLess_loop (o : Order) (last : Int) (l : List Order) :
    ownLess (tradeLoop o last l).o = ownLess o := by
  have h := tradeLoop_o_sameOrder l o last
  unfold ownLess
  rw [← h.2.1]

/-- The sides of a book seen from an order: ranking order of both sides. -/
theorem Sorted_iff_sides (b : Book) (o : Order) :
    b.Sorted ↔ Ranked (ownLess o) (b.own o) ∧ Ranked (oppLess o) (b.opposing o) := by
  unfold Book.Sorted ownLess oppLess Book.own Book.opposing
  by_cases ht : o.Typ = OrderType.Ask
  · simp only [ht, if_true]
    exact And.comm
  · simp only [ht, if_false]

/-- Insertion by `Put` keeps a ranked side ranked. -/
theorem Put_ranked (o x : Order) (l : List Order) (hr : Ranked (ownLess o) l) :
    Ranked (ownLess o) (Put (ownLess o) l x) := by
  obtain ⟨pre, post, hsplit, hput, hpre, hpost⟩ :=
    Put_split (ownLess o) (ownLess_priceOrder o) x l hr
  rw [hput]
  rw [hsplit] at hr
  unfold Ranked at *
  rw [List.pairwise_append] at hr ⊢
  refine ⟨hr.1, ?_, ?_⟩
  · rw [List.pairwise_cons]
    exact ⟨fun y hy => ownLess_asymm o x y (hpost y hy), hr.2.1⟩
  · intro a ha c hc
    rcases List.mem_cons.1 hc with rfl | hc
    · exact hpre a ha
    · exact hr.2.2 a ha c hc

/-- One `Trade` call keeps both sides in ranking order. -/
theorem Trade_sorted (b : Book) (o : Order) (hs : b.Sorted) : (b.Trade o).book.Sorted := by
  rw [Sorted_iff_sides _ o] at hs ⊢
  rw [Trade_own, Trade_opposing]
  refine ⟨?_, ?_⟩
  · split
    · rw [← ownLess_loop o b.last (b.opposing o)]
      apply Put_ranked
      rw [ownLess_loop]
      exact hs.1
    · exact hs.1
  · exact tradeLoop_fill_pairwise _ (oppLess_sameOrder o) _ _ _ hs.2

/-- One `Cancel` call keeps both sides in ranking order. -/
theorem Cancel_sorted (b : Book) (ref : Order) (hs : b.Sorted) :
    (b.Cancel ref).book.Sorted := by
  rw [Sorted_iff_sides _ ref] at hs ⊢
  rw [Cancel_own, Cancel_opposing]
  exact ⟨List.Pairwise.sublist (DelIf_sublist _ _ _ _) hs.1, hs.2⟩

/-- Every sequence of calls keeps both sides in ranking order. -/
theorem calls_sorted (cs : List Call) : ∀ b : Book, b.Sorted → (b.calls cs).Sorted := by
  induction cs with
  | nil => intro b hb; exact hb
  | cons c cs ih =>
    intro b hb
    cases c with
    | Trade o => exact ih _ (Trade_sorted b o hb)
    | Cancel ref => exact ih _ (Cancel_sorted b ref hb)

theorem New_sorted : New.Sorted := by
  unfold Book.Sorted Ranked New
  exact ⟨List.Pairwise.nil, List.Pairwise.nil⟩

/-- One `Cancel` call leaves each side a sublist of what it was. -/
theorem Cancel_sublist (b : Book) (ref : Order) :
    List.Sublist (b.Cancel ref).book.bids b.bids ∧
    List.Sublist (b.Cancel ref).book.asks b.asks := by
  by_cases ht : ref.Typ = OrderType.Ask
  · have h := DelIf_sublist asksLess ref (fun cur => decide (cur.ID = ref.ID)) b.asks
    simp only [Book.Cancel, ht, if_true]
    exact ⟨List.Sublist.refl _, h⟩
  · have h := DelIf_sublist bidsLess ref (fun cur => decide (cur.ID = ref.ID)) b.bids
    simp only [Book.Cancel, ht, if_false]
    exact ⟨h, List.Sublist.refl _⟩

theorem head_le_of_pairwise (R : Order → Order → Prop) (hrefl : ∀ a, R a a)
    (l : List Order) (h : l.Pairwise R) : ∀ x ∈ l.head?, ∀ y ∈ l, R x y := by
  intro x hx y hy
  cases l with
  | nil => cases hx
  | cons a as =>
    simp only [List.head?_cons, Option.mem_def, Option.some.injEq] at hx
    subst hx
    rcases List.mem_cons.1 hy with rfl | hy
    · exact hrefl _
    · exact (List.pairwise_cons.1 h).1 y hy

/-! ## Insertion order, by ghost stamps -/

theorem stampedPut_map (less : Order → Order → Bool) (e : Order × Nat)
    (l : List (Order × Nat)) :
    (stampedPut less l e).map Prod.fst = Put less (l.map Prod.fst) e.1 := by
  induction l with
  | nil => rfl
  | cons x xs ih =>
    cases h : less e.1 x.1 with
    | true => simp [stampedPut, Put, h]
    | false => simp [stampedPut, Put, h, ih]

theorem stampedDelIf_map (less : Order → Order → Bool) (o : Order) (p : Order → Bool)
    (l : List (Order × Nat)) :
    (stampedDelIf less l o p).map Prod.fst = (DelIf less (l.map Prod.fst) o p).2 := by
  induction l with
  | nil => rfl
  | cons x xs ih =>
    cases h1 : less x.1 o with
    | true => simp [stampedDelIf, DelIf, h1, ih]
    | false =>
      cases h2 : less o x.1 with
      | true => simp [stampedDelIf, DelIf, h1, h2]
      | false =>
        cases h3 : p x.1 with
        | true => simp [stampedDelIf, DelIf, h1, h2, h3]
        | false => simp [stampedDelIf, DelIf, h1, h2, h3, ih]

theorem stampedLoop_map (l : List (Order × Nat)) :
    ∀ (o : Order) (last : Int),
      (stampedLoop o l).map Prod.fst = (tradeLoop o last (l.map Prod.fst)).fill := by
  induction l with
  | nil => intro o last; rfl
  | cons cur rest ih =>
    intro o last
    by_cases h1 : o.Filled < o.Amount
    · cases h2 : stops o cur.1 with
      | true =>
        rw [List.map_cons, tradeLoop_stop o last cur.1 _ h2]
        simp [stampedLoop, h1, h2]
      | false =>
        rw [List.map_cons, tradeLoop_step o last cur.1 _ h1 h2]
        have hrec := ih (o.credit (dialAmount o cur.1) (Rat.Mul (dialAmount o cur.1) cur.1.Price))
          cur.1.Price
        cases h3 : exceeds o cur.1 with
        | true => simp [stampedLoop, h1, h2, h3, hrec]
        | false => simp [stampedLoop, h1, h2, h3, hrec]
    · rw [tradeLoop_full o last _ h1]
      simp [stampedLoop, h1]

/-- The stamped side left by the loop consists of entries of the side
before, in their order, each with its stamp and with its identifier, side,
price and amount. -/
theorem stampedLoop_image (l : List (Order × Nat)) :
    ∀ o : Order,
      ∃ s, List.Sublist s l ∧
        List.Forall₂ (fun a c : Order × Nat => sameOrder a.1 c.1 ∧ a.2 = c.2) s
          (stampedLoop o l) := by
  have hrefl : ∀ l : List (Order × Nat),
      List.Forall₂ (fun a c : Order × Nat => sameOrder a.1 c.1 ∧ a.2 = c.2) l l := by
    intro l
    induction l with
    | nil => exact List.Forall₂.nil
    | cons x xs ih => exact List.Forall₂.cons ⟨⟨rfl, rfl, rfl, rfl⟩, rfl⟩ ih
  induction l with
  | nil => intro o; exact ⟨[], List.Sublist.refl _, by simp [stampedLoop]⟩
  | cons cur rest ih =>
    intro o
    by_cases h1 : o.Filled < o.Amount
    · cases h2 : stops o cur.1 with
      | true =>
        refine ⟨cur :: rest, List.Sublist.refl _, ?_⟩
        simp only [stampedLoop, h1, h2, not_true_eq_false, if_true, if_false]
        exact hrefl _
      | false =>
        obtain ⟨s, hsub, hf⟩ :=
          ih (o.credit (dialAmount o cur.1) (Rat.Mul (dialAmount o cur.1) cur.1.Price))
        cases h3 : exceeds o cur.1 with
        | true =>
          refine ⟨s, List.Sublist.cons _ hsub, ?_⟩
          simp only [stampedLoop, h1, h2, h3, not_true_eq_false, if_true, if_false,
            Bool.false_eq_true]
          exact hf
        | false =>
          refine ⟨cur :: s, List.Sublist.cons₂ _ hsub, ?_⟩
          simp only [stampedLoop, h1, h2, h3, not_true_eq_false, if_false,
            Bool.false_eq_true]
          exact List.Forall₂.cons ⟨credit_sameOrder _ _ _, rfl⟩ hf
    · refine ⟨cur :: rest, List.Sublist.refl _, ?_⟩
      simp only [stampedLoop, h1, not_false_eq_true, if_true]
      exact hrefl _

theorem stamped_forall₂_mem {S : Order × Nat → Order × Nat → Prop}
    {l1 l2 : List (Order × Nat)} (h : List.Forall₂ S l1 l2) {y : Order × Nat}
    (hy : y ∈ l2) : ∃ x ∈ l1, S x y := by
  induction h with
  | nil => cases hy
  | cons hab _ ih =>
    rcases List.mem_cons.1 hy with rfl | hy
    · exact ⟨_, List.mem_cons_self _ _, hab⟩
    · obtain ⟨x, hx, hr⟩ := ih hy
      exact ⟨x, List.mem_cons_of_mem _ hx, hr⟩

theorem stampedLoop_mem (l : List (Order × Nat)) (o : Order) (e : Order × Nat)
    (he : e ∈ stampedLoop o l) : ∃ e0 ∈ l, sameOrder e0.1 e.1 ∧ e0.2 = e.2 := by
  obtain ⟨s, hsub, hf⟩ := stampedLoop_image l o
  obtain ⟨x, hx, hxe⟩ := stamped_forall₂_mem hf he
  exact ⟨x, hsub.subset hx, hxe⟩

theorem stampedLoop_ordered (l : List (Order × Nat)) (o : Order) (h : StampOrdered l) :
    StampOrdered (stampedLoop o l) := by
  obtain ⟨s, hsub, hf⟩ := stampedLoop_image l o
  have hs : StampOrdered s := List.Pairwise.sublist hsub h
  clear hsub h
  generalize stampedLoop o l = r at hf
  unfold StampOrdered at *
  induction hf with
  | nil => exact List.Pairwise.nil
  | cons hab hrest ih =>
    rw [List.pairwise_cons] at hs ⊢
    refine ⟨?_, ih hs.2⟩
    intro y hy hprice
    obtain ⟨x, hx, hxy⟩ := stamped_forall₂_mem hrest hy
    have := hs.1 x hx (by rw [hab.1.2.2.1, hxy.1.2.2.1]; exact hprice)
    rw [← hab.2, ← hxy.2]
    exact this

theorem stampedDelIf_sublist (less : Order → Order → Bool) (o : Order) (p : Order → Bool)
    (l : List (Order × Nat)) : List.Sublist (stampedDelIf less l o p) l := by
  induction l with
  | nil => exact List.Sublist.refl _
  | cons x xs ih =>
    cases h1 : less x.1 o with
    | true =>
      simp only [stampedDelIf, h1, if_true]
      exact List.Sublist.cons₂ _ ih
    | false =>
      cases h2 : less o x.1 with
      | true =>
        simp only [stampedDelIf, h1, h2, if_true, Bool.false_eq_true, if_false]
        exact List.Sublist.refl _
      | false =>
        cases h3 : p x.1 with
        | true =>
          simp only [stampedDelIf, h1, h2, h3, if_true, Bool.false_eq_true, if_false]
          exact List.sublist_cons_self _ _
        | false =>
          simp only [stampedDelIf, h1, h2, h3, Bool.false_eq_true, if_false]
          exact List.Sublist.cons₂ _ ih

/-- On a ranked side `stampedPut` places the entry in front of the entries
it ranks strictly before, and behind all others. -/
theorem stampedPut_split (less : Order → Order → Bool) (hp : PriceOrder less)
    (e : Order × Nat) (l : List (Order × Nat)) (hr : Ranked less (l.map Prod.fst)) :
    ∃ pre post, l = pre ++ post ∧ stampedPut less l e = pre ++ e :: post ∧
      ∀ x ∈ post, less e.1 x.1 = true := by
  induction l with
  | nil => exact ⟨[], [], rfl, rfl, by simp⟩
  | cons y ys ih =>
    rw [List.map_cons] at hr
    cases hy : less e.1 y.1 with
    | true =>
      refine ⟨[], y :: ys, rfl, by simp [stampedPut, hy], ?_⟩
      intro x hx
      rcases List.mem_cons.1 hx with rfl | hx
      · exact hy
      · exact hp.trans_after e.1 y.1 x.1 hy
          ((List.pairwise_cons.1 hr).1 x.1 (List.mem_map_of_mem _ hx))
    | false =>
      obtain ⟨pre, post, hsplit, hput, hpost⟩ := ih (List.pairwise_cons.1 hr).2
      exact ⟨y :: pre, post, by simp [hsplit], by simp [stampedPut, hy, hput], hpost⟩

theorem SideInv_mono (full : List Call) (t : Nat) (l : List (Order × Nat))
    (h : SideInv full t l) : SideInv full (t + 1) l :=
  ⟨fun e he => Nat.lt_succ_of_lt (h.1 e he), h.2.1, h.2.2⟩

theorem SideInv_sublist (full : List Call) (t : Nat) (l1 l2 : List (Order × Nat))
    (hsub : List.Sublist l1 l2) (h : SideInv full t l2) : SideInv full t l1 :=
  ⟨fun e he => h.1 e (hsub.subset he), fun e he => h.2.1 e (hsub.subset he),
    List.Pairwise.sublist hsub h.2.2⟩

theorem SideInv_loop (full : List Call) (t : Nat) (l : List (Order × Nat)) (o : Order)
    (h : SideInv full t l) : SideInv full t (stampedLoop o l) := by
  refine ⟨?_, ?_, stampedLoop_ordered l o h.2.2⟩
  · intro e he
    obtain ⟨e0, he0, -, hst⟩ := stampedLoop_mem l o e he
    rw [← hst]
    exact h.1 e0 he0
  · intro e he
    obtain ⟨e0, he0, hsame, hst⟩ := stampedLoop_mem l o e he
    obtain ⟨o0, ho0, hs0⟩ := h.2.1 e0 he0
    refine ⟨o0, by rw [← hst]; exact ho0, ?_⟩
    exact ⟨hs0.1.trans hsame.1, hs0.2.1.trans hsame.2.1, hs0.2.2.1.trans hsame.2.2.1,
      hs0.2.2.2.trans hsame.2.2.2⟩

theorem SideInv_put (full : List Call) (t : Nat) (less : Order → Order → Bool)
    (hp : PriceOrder less) (l : List (Order × Nat)) (o o1 : Order)
    (hr : Ranked less (l.map Prod.fst)) (h : SideInv full t l)
    (hc : full[t]? = some (Call.Trade o)) (hsame : sameOrder o o1) :
    SideInv full (t + 1) (stampedPut less l (o1, t)) := by
  obtain ⟨pre, post, hsplit, hput, hpost⟩ := stampedPut_split less hp (o1, t) l hr
  rw [hput]
  rw [hsplit] at h
  refine ⟨?_, ?_, ?_⟩
  · intro e he
    rcases List.mem_append.1 he with he | he
    · exact Nat.lt_succ_of_lt (h.1 e (List.mem_append_left _ he))
    · rcases List.mem_cons.1 he with rfl | he
      · exact Nat.lt_succ_self _
      · exact Nat.lt_succ_of_lt (h.1 e (List.mem_append_right _ he))
  · intro e he
    rcases List.mem_append.1 he with he | he
    · exact h.2.1 e (List.mem_append_left _ he)
    · rcases List.mem_cons.1 he with rfl | he
      · exact ⟨o, hc, hsame⟩
      · exact h.2.1 e (List.mem_append_right _ he)
  · have hord := h.2.2
    unfold StampOrdered at *
    rw [List.pairwise_append] at hord ⊢
    refine ⟨hord.1, ?_, ?_⟩
    · rw [List.pairwise_cons]
      refine ⟨?_, hord.2.1⟩
      intro y hy hprice
      have h1 := hpost y hy
      have h2 := hp.not_less_of_eq o1 y.1 hprice
      rw [h2] at h1
      cases h1
    · intro a ha c hc1
      rcases List.mem_cons.1 hc1 with rfl | hc1
      · intro _
        exact h.1 a (List.mem_append_left _ ha)
      · exact hord.2.2 a ha c hc1

theorem Book_eq_of_fields (b1 b2 : Book) (h1 : b1.bids = b2.bids) (h2 : b1.asks = b2.asks)
    (h3 : b1.last = b2.last) : b1 = b2 := by
  cases b1
  cases b2
  simp_all

/-- One call on a stamped book: without the stamps it is the call on the
book, and the stamps stay what `SideInv` says. -/
theorem stamped_call (full : List Call) (t : Nat) (sb : StampedBook) (c : Call)
    (hc : full[t]? = some c) (hs : sb.erase.Sorted)
    (hb : SideInv full t sb.bids) (ha : SideInv full t sb.asks) :
    (sb.call t c).erase = sb.erase.call c ∧
    SideInv full (t + 1) (sb.call t c).bids ∧
    SideInv full (t + 1) (sb.call t c).asks := by
  cases c with
  | Trade o =>
    have hown := Trade_own sb.erase o
    have hopp := Trade_opposing sb.erase o
    have ho := Trade_o sb.erase o
    have hlast := Trade_last sb.erase o
    have hsame : sameOrder o (sb.erase.Trade o).o := by
      rw [ho]
      exact tradeLoop_o_sameOrder _ o _
    by_cases ht : o.Typ = OrderType.Ask
    · simp only [Book.own, Book.opposing, ownLess, ht, if_true] at hown hopp ho
      refine ⟨?_, ?_, ?_⟩
      · apply Book_eq_of_fields
        · simp only [StampedBook.call, ht, if_true]
          show List.map Prod.fst (stampedLoop o sb.bids) = (sb.erase.Trade o).book.bids
          rw [hopp]
          exact stampedLoop_map sb.bids o sb.last
        · simp only [StampedBook.call, ht, if_true]
          show List.map Prod.fst
              (if (sb.erase.Trade o).o.Filled < (sb.erase.Trade o).o.Amount then
                stampedPut asksLess sb.asks ((sb.erase.Trade o).o, t)
              else sb.asks) = (sb.erase.Trade o).book.asks
          rw [hown, ← ho]
          split
          · exact stampedPut_map _ _ _
          · rfl
        · simp only [StampedBook.call, ht, if_true]
          rfl
      · simp only [StampedBook.call, ht, if_true]
        exact SideInv_mono _ _ _ (SideInv_loop _ _ _ o hb)
      · simp only [StampedBook.call, ht, if_true]
        split
        · exact SideInv_put full t asksLess asksLess_priceOrder sb.asks o _ hs.2 ha hc hsame
        · exact SideInv_mono _ _ _ ha
    · simp only [Book.own, Book.opposing, ownLess, ht, if_false] at hown hopp ho
      refine ⟨?_, ?_, ?_⟩
      · apply Book_eq_of_fields
        · simp only [StampedBook.call, ht, if_false]
          show List.map Prod.fst
              (if (sb.erase.Trade o).o.Filled < (sb.erase.Trade o).o.Amount then
                stampedPut bidsLess sb.bids ((sb.erase.Trade o).o, t)
              else sb.bids) = (sb.erase.Trade o).book.bids
          rw [hown, ← ho]
          split
          · exact stampedPut_map _ _ _
          · rfl
        · simp only [StampedBook.call, ht, if_false]
          show List.map Prod.fst (stampedLoop o sb.asks) = (sb.erase.Trade o).book.asks
          rw [hopp]
          exact stampedLoop_map sb.asks o sb.last
        · simp only [StampedBook.call, ht, if_false]
          rfl
      · simp only [StampedBook.call, ht, if_false]
        split
        · exact SideInv_put full t bidsLess bidsLess_priceOrder sb.bids o _ hs.1 hb hc hsame
        · exact SideInv_mono _ _ _ hb
      · simp only [StampedBook.call, ht, if_false]
        exact SideInv_mono _ _ _ (SideInv_loop _ _ _ o ha)
  | Cancel ref =>
    by_cases ht : ref.Typ = OrderType.Ask
    · refine ⟨?_, ?_, ?_⟩
      · apply Book_eq_of_fields
        · simp [StampedBook.call, ht, StampedBook.erase, Book.call, Book.Cancel]
        · simp only [StampedBook.call, ht, if_true, StampedBook.erase, Book.call, Book.Cancel]
          exact stampedDelIf_map _ _ _ _
        · simp [StampedBook.call, ht, StampedBook.erase, Book.call, Book.Cancel]
      · simp only [StampedBook.call, ht, if_true]
        exact SideInv_mono _ _ _ hb
      · simp only [StampedBook.call, ht, if_true]
        exact SideInv_mono _ _ _
          (SideInv_sublist _ _ _ _ (stampedDelIf_sublist _ _ _ _) ha)
    · refine ⟨?_, ?_, ?_⟩
      · apply Book_eq_of_fields
        · simp only [StampedBook.call, ht, if_false, StampedBook.erase, Book.call, Book.Cancel]
          exact stampedDelIf_map _ _ _ _
        · simp [StampedBook.call, ht, StampedBook.erase, Book.call, Book.Cancel]
        · simp [StampedBook.call, ht, StampedBook.erase, Book.call, Book.Cancel]
      · simp only [StampedBook.call, ht, if_false]
        exact SideInv_mono _ _ _
          (SideInv_sublist _ _ _ _ (stampedDelIf_sublist _ _ _ _) hb)
      · simp only [StampedBook.call, ht, if_false]
        exact SideInv_mono _ _ _ ha

/-- A sequence of calls on a stamped book: without the stamps it is the
sequence of calls on the book, and the stamps stay what `SideInv` says. -/
theorem stamped_run (full : List Call) (cs : List Call) :
    ∀ (sb : StampedBook) (t : Nat),
      (∀ (k : Nat) (c : Call), cs[k]? = some c → full[t + k]? = some c) →
      sb.erase.Sorted → SideInv full t sb.bids → SideInv full t sb.asks →
      (sb.run t cs).erase = sb.erase.calls cs ∧
      SideInv full (t + cs.length) (sb.run t cs).bids ∧
      SideInv full (t + cs.length) (sb.run t cs).asks := by
  induction cs with
  | nil =>
    intro sb t _ _ hb ha
    exact ⟨rfl, hb, ha⟩
  | cons c cs ih =>
    intro sb t hfull hs hb ha
    have hc : full[t]? = some c := by
      have := hfull 0 c (by simp)
      simpa using this
    obtain ⟨he, hb1, ha1⟩ := stamped_call full t sb c hc hs hb ha
    have hs1 : (sb.call t c).erase.Sorted := by
      rw [he]
      cases c with
      | Trade o => exact Trade_sorted _ o hs
      | Cancel ref => exact Cancel_sorted _ ref hs
    have hfull1 : ∀ (k : Nat) (c1 : Call), cs[k]? = some c1 →
        full[t + 1 + k]? = some c1 := by
      intro k c1 hk
      have := hfull (k + 1) c1 (by simpa using hk)
      have harith : t + 1 + k = t + (k + 1) := by omega
      rw [harith]
      exact this
    obtain ⟨he2, hb2, ha2⟩ := ih (sb.call t c) (t + 1) hfull1 hs1 hb1 ha1
    have hlen : t + (c :: cs).length = t + 1 + cs.length := by
      simp only [List.length_cons]
      omega
    rw [hlen]
    refine ⟨?_, hb2, ha2⟩
    show ((sb.call t c).run (t + 1) cs).erase = (sb.erase.calls (c :: cs))
    rw [he2, he]
    rfl

/-- C11 (side ordering invariant). After any sequence of `Trade` and
`Cancel` calls on a new book the bid side is sorted by nondecreasing price
and the ask side by nonincreasing price, so the first bid is the
lowest-priced and the first ask the highest-priced resting order of its
side. Equal-priced orders stand in the order in which they were inserted:
when every resting entry is stamped with the number of the call that
inserted it (`stampedCalls`, which without the stamps is the book), every
stamp is the number of a `Trade` call of that same order, and of two entries
of equal price on a side the earlier one carries the smaller stamp. -/
theorem calls_side_ordering (cs : List Call) :
    (New.calls cs).bids.Pairwise (fun a c => a.Price ≤ c.Price) ∧
    (New.calls cs).asks.Pairwise (fun a c => a.Price ≥ c.Price) ∧
    (∀ x ∈ (New.calls cs).bids.head?, ∀ y ∈ (New.calls cs).bids, x.Price ≤ y.Price) ∧
    (∀ x ∈ (New.calls cs).asks.head?, ∀ y ∈ (New.calls cs).asks, x.Price ≥ y.Price) ∧
    (stampedCalls cs).erase = New.calls cs ∧
    (∀ e ∈ (stampedCalls cs).bids ++ (stampedCalls cs).asks,
      e.2 < cs.length ∧ ∃ o, cs[e.2]? = some (Call.Trade o) ∧ sameOrder o e.1) ∧
    (stampedCalls cs).bids.Pairwise (fun a c => a.1.Price = c.1.Price → a.2 < c.2) ∧
    (stampedCalls cs).asks.Pairwise (fun a c => a.1.Price = c.1.Price → a.2 < c.2) := by
  have hs := calls_sorted cs New New_sorted
  have hb : (New.calls cs).bids.Pairwise (fun a c => a.Price ≤ c.Price) := by
    refine List.Pairwise.imp ?_ hs.1
    intro a c h
    simp only [bidsLess, decide_eq_false_iff_not] at h
    omega
  have ha : (New.calls cs).asks.Pairwise (fun a c => a.Price ≥ c.Price) := by
    refine List.Pairwise.imp ?_ hs.2
    intro a c h
    simp only [asksLess, decide_eq_false_iff_not] at h
    omega
  have hempty : SideInv cs 0 ([] : List (Order × Nat)) :=
    ⟨by simp, by simp, List.Pairwise.nil⟩
  obtain ⟨he, hsb, hsa⟩ := stamped_run cs cs { bids := [], asks := [], last := 0 } 0
    (by intro k c hk; simpa using hk) New_sorted hempty hempty
  simp only [Nat.zero_add] at hsb hsa
  refine ⟨hb, ha, head_le_of_pairwise _ (fun a => Int.le_refl _) _ hb,
    head_le_of_pairwise _ (fun a => Int.le_refl _) _ ha, he, ?_, hsb.2.2, hsa.2.2⟩
  intro e he1
  rcases List.mem_append.1 he1 with h | h
  · exact ⟨hsb.1 e h, hsb.2.1 e h⟩
  · exact ⟨hsa.1 e h, hsa.2.1 e h⟩

/-- Witness of `calls_side_ordering` on calls whose identifiers do not
follow the order of submission: the bids at price 10 inserted by the calls
0, 3 and 4 (IDs 3, 1, 7; the bid of call 1 was cancelled) stand in that
order behind the bid at 9 inserted by call 2. -/
theorem calls_side_ordering_witness :
    (stampedCalls fifoCalls).bids =
      [(⟨3, OrderType.Bid, 9 * Div, 100 * Div, 0, 0⟩, 2),
       (⟨3, OrderType.Bid, 10 * Div, 100 * Div, 0, 0⟩, 0),
       (⟨1, OrderType.Bid, 10 * Div, 100 * Div, 0, 0⟩, 3),
       (⟨7, OrderType.Bid, 10 * Div, 100 * Div, 0, 0⟩, 4)] ∧
    (New.calls fifoCalls).bids =
      [⟨3, OrderType.Bid, 9 * Div, 100 * Div, 0, 0⟩,
       ⟨3, OrderType.Bid, 10 * Div, 100 * Div, 0, 0⟩,
       ⟨1, OrderType.Bid, 10 * Div, 100 * Div, 0, 0⟩,
       ⟨7, OrderType.Bid, 10 * Div, 100 * Div, 0, 0⟩] ∧
    (stampedCalls fifoCalls).erase = New.calls fifoCalls ∧
    (stampedCalls fifoCalls).bids.Pairwise
      (fun a c => a.1.Price = c.1.Price → a.2 < c.2) :=
  ⟨by decide, by decide, (calls_side_ordering fifoCalls).2.2.2.2.1,
    (calls_side_ordering fifoCalls).2.2.2.2.2.2.1⟩

/-! ## Last traded price -/

/-- The loop leaves `last` as it was when it touches nothing, and sets it to
the price of the order it touched last otherwise. -/
theorem tradeLoop_last (l : List Order) :
    ∀ (o : Order) (last : Int),
      (tradeLoop o last l).last =
        match (tradeLoop o last l).touched.getLast? with
        | none => last
        | some t => t.Price := by
  induction l with
  | nil => intro o last; simp [tradeLoop]
  | cons cur rest ih =>
    intro o last
    by_cases h1 : o.Filled < o.Amount
    · cases h2 : stops o cur with
      | true => rw [tradeLoop_stop o last cur rest h2]; simp
      | false =>
        have hrec := ih (o.credit (dialAmount o cur) (Rat.Mul (dialAmount o cur) cur.Price))
          cur.Price
        rw [tradeLoop_step o last cur rest h1 h2]
        simp only
        rw [hrec]
        cases hq : (tradeLoop (o.credit (dialAmount o cur)
            (Rat.Mul (dialAmount o cur) cur.Price)) cur.Price rest).touched with
        | nil => simp [Order.credit]
        | cons a as =>
          rw [List.getLast?_cons_cons, List.getLast?_eq_getLast _ (List.cons_ne_nil a as)]
    · rw [tradeLoop_full o last _ h1]; simp

/-- C16 (last traded price). `LastPrice` is 0 on a new book; a `Trade` call
that touches no resting order and every `Cancel` call leave it unchanged; a
`Trade` call that touches at least one resting order sets it to the price of
the resting order touched last in that call. -/
theorem LastPrice_contract :
    New.LastPrice = 0 ∧
    (∀ (b : Book) (o : Order), (b.Trade o).touched = [] →
      (b.Trade o).book.LastPrice = b.LastPrice) ∧
    (∀ (b : Book) (ref : Order), (b.Cancel ref).book.LastPrice = b.LastPrice) ∧
    (∀ (b : Book) (o t : Order), (b.Trade o).touched.getLast? = some t →
      (b.Trade o).book.LastPrice = t.Price) := by
  refine ⟨rfl, ?_, ?_, ?_⟩
  · intro b o h
    rw [Trade_touched] at h
    unfold Book.LastPrice
    rw [Trade_last, tradeLoop_last, h]
    rfl
  · intro b ref
    exact Cancel_last b ref
  · intro b o t h
    rw [Trade_touched] at h
    unfold Book.LastPrice
    rw [Trade_last, tradeLoop_last, h]

/-- Witness of `LastPrice_contract` on the book of `TestBidAskChain`: the
Ask at 20 touches the bids at 10 and 15, and the last price becomes 15, the
price of the bid touched last. -/
theorem LastPrice_contract_witness :
    (chainBook.Trade chainAsk).touched.getLast? =
      some ⟨2, OrderType.Bid, 15 * Div, 100 * Div, 100 * Div, 1500 * Div⟩ ∧
    (chainBook.Trade chainAsk).book.LastPrice = 15 * Div ∧
    (chainBook.Trade chainAsk).book.LastPrice =
      (⟨2, OrderType.Bid, 15 * Div, 100 * Div, 100 * Div, 1500 * Div⟩ : Order).Price :=
  ⟨by decide, by decide,
    LastPrice_contract.2.2.2 chainBook chainAsk
      ⟨2, OrderType.Bid, 15 * Div, 100 * Div, 100 * Div, 1500 * Div⟩ (by decide)⟩

/-! ## Middle price -/

/-- Truncated halving of an `int64` value, in terms of floor division. -/
theorem tdiv_two (x : Int) :
    Int.tdiv x 2 = if 0 ≤ x then x / 2 else -((-x) / 2) := by
  by_cases h : 0 ≤ x
  · simp only [h, if_true]
    exact Int.tdiv_eq_ediv h (by decide)
  · simp only [h, if_false]
    have h1 : Int.tdiv (-x) 2 = (-x) / 2 := Int.tdiv_eq_ediv (by omega) (by decide)
    rw [Int.neg_tdiv] at h1
    omega

/-- The sum of two halved `int64` values does not overflow. -/
theorem add_halves (x y : Int) (hx : Rat.InRange x) (hy : Rat.InRange y) :
    Rat.add (Int.tdiv x 2) (Int.tdiv y 2) = Int.tdiv x 2 + Int.tdiv y 2 := by
  unfold Rat.InRange at hx hy
  unfold Rat.add
  apply wrap_of_inRange
  unfold Rat.InRange
  rw [tdiv_two x, tdiv_two y]
  split <;> split <;> omega

theorem MiddlePrice_eq (b : Book) :
    b.MiddlePrice =
      Rat.add (Int.tdiv (if midHi b = 0 then midLo b else midHi b) 2)
        (Int.tdiv (midLo b) 2) := by
  unfold Book.MiddlePrice midLo midHi
  cases hb : b.bids <;> cases ha : b.asks <;> simp

theorem midHi_inRange (b : Book) (hw : b.WF) : Rat.InRange (midHi b) := by
  unfold midHi
  cases hb : b.bids with
  | nil => simp only [List.head?_nil]; unfold Rat.InRange; omega
  | cons x xs =>
    simp only [List.head?_cons]
    exact (hw.1 x (by rw [hb]; exact List.mem_cons_self _ _)).1

theorem midLo_inRange (b : Book) (hw : b.WF) : Rat.InRange (midLo b) := by
  unfold midLo
  cases ha : b.asks with
  | nil => simp only [List.head?_nil]; exact midHi_inRange b hw
  | cons x xs =>
    simp only [List.head?_cons]
    exact (hw.2 x (by rw [ha]; exact List.mem_cons_self _ _)).1

/-- C15 (MiddlePrice formula). For every book (its prices being `int64`
values) `MiddlePrice` returns `hi/2 + lo/2`, each operand halved separately
by truncating division, where `hi` is the price of the first bid (0 if there
is none), `lo` the price of the first ask (`hi` if there is none), and `hi`
is replaced by `lo` when it is 0; it returns 0 when both sides are empty,
and 9.5 (scaled) for one resting bid at 10 and one resting ask at 9. -/
theorem MiddlePrice_formula (b : Book) (hw : b.WF) :
    b.MiddlePrice =
      Int.tdiv (if midHi b = 0 then midLo b else midHi b) 2 + Int.tdiv (midLo b) 2 ∧
    (b.bids = [] → b.asks = [] → b.MiddlePrice = 0) ∧
    midBook.MiddlePrice = 9500000000 := by
  refine ⟨?_, ?_, by decide⟩
  · rw [MiddlePrice_eq]
    apply add_halves
    · split
      · exact midLo_inRange b hw
      · exact midHi_inRange b hw
    · exact midLo_inRange b hw
  · intro hb ha
    simp [Book.MiddlePrice, hb, ha, Rat.add, wrap]

/-- Witness of `MiddlePrice_formula` on the book of `TestMiddlePrice`. -/
theorem MiddlePrice_formula_witness :
    midBook.WF ∧ midBook.MiddlePrice = 9500000000 ∧
    midBook.MiddlePrice =
      Int.tdiv (if midHi midBook = 0 then midLo midBook else midHi midBook) 2 +
        Int.tdiv (midLo midBook) 2 :=
  ⟨by decide, by decide, (MiddlePrice_formula midBook (by decide)).1⟩

/-- C18 (one-sided mid price), refuted as stated: with one resting bid at
the odd scaled price 10000000001 and no ask, `MiddlePrice` returns
10000000000, not the price of the bid. -/
theorem MiddlePrice_one_sided_odd :
    oddBidBook.bids ≠ [] ∧ oddBidBook.asks = [] ∧
    oddBidBook.MiddlePrice = 10000000000 ∧
    ¬ (∀ x ∈ oddBidBook.bids.head?, oddBidBook.MiddlePrice = x.Price) := by
  decide

/-- C18 as amended. For every book with at least one resting bid and no
resting ask, `MiddlePrice` returns `P/2 + P/2` with truncating division,
`P` being the price of the first bid: exactly `P` when `P` is even (one bid
at 10 and no ask yields 10), and the even neighbour of `P` toward zero when
`P` is odd. -/
theorem MiddlePrice_one_sided (b : Book) (x : Order) (rest : List Order)
    (hb : b.bids = x :: rest) (ha : b.asks = []) (hx : Rat.InRange x.Price) :
    b.MiddlePrice = Int.tdiv x.Price 2 + Int.tdiv x.Price 2 ∧
    (x.Price % 2 = 0 → b.MiddlePrice = x.Price) ∧
    (x.Price % 2 = 1 → 0 < x.Price → b.MiddlePrice = x.Price - 1) ∧
    (x.Price % 2 = 1 → x.Price < 0 → b.MiddlePrice = x.Price + 1) ∧
    (New.Trade ⟨1, OrderType.Bid, 10 * Div, 100 * Div, 0, 0⟩).book.MiddlePrice =
      10 * Div := by
  have h : b.MiddlePrice = Int.tdiv x.Price 2 + Int.tdiv x.Price 2 := by
    rw [MiddlePrice_eq]
    have h1 : midHi b = x.Price := by simp [midHi, hb]
    have h2 : midLo b = x.Price := by simp [midLo, ha, h1]
    rw [h1, h2]
    have h3 : (if x.Price = 0 then x.Price else x.Price) = x.Price := by split <;> rfl
    rw [h3]
    exact add_halves _ _ hx hx
  refine ⟨h, ?_, ?_, ?_, by decide⟩
  · intro hp
    rw [h, tdiv_two]
    split <;> omega
  · intro hp hpos
    rw [h, tdiv_two]
    split <;> omega
  · intro hp hneg
    rw [h, tdiv_two]
    split <;> omega

/-- Witness of `MiddlePrice_one_sided` on the first step of
`TestMiddlePrice`: one bid at 10 and no ask. -/
theorem MiddlePrice_one_sided_witness :
    (New.Trade ⟨1, OrderType.Bid, 10 * Div, 100 * Div, 0, 0⟩).book.bids =
      [⟨1, OrderType.Bid, 10 * Div, 100 * Div, 0, 0⟩] ∧
    (New.Trade ⟨1, OrderType.Bid, 10 * Div, 100 * Div, 0, 0⟩).book.asks = [] ∧
    Rat.InRange (10 * Div) ∧
    (New.Trade ⟨1, OrderType.Bid, 10 * Div, 100 * Div, 0, 0⟩).book.MiddlePrice =
      10 * Div :=
  ⟨by decide, by decide, by decide,
    (MiddlePrice_one_sided (New.Trade ⟨1, OrderType.Bid, 10 * Div, 100 * Div, 0, 0⟩).book
      ⟨1, OrderType.Bid, 10 * Div, 100 * Div, 0, 0⟩ [] (by decide) (by decide)
      (by decide)).2.1 (by decide)⟩

/-! ## Depth: the limit -/

theorem setAt_of_lt (res : List DepthPoint) (i : Nat) (add : DepthPoint)
    (h : i < res.length) : setAt res i add = some (res.set i add) := by
  simp [setAt, h]

/-- The loop of `Depth` never writes outside `res` and keeps `i <= n`. -/
theorem depthLoop_ok (n : Nat) (l : List Order) :
    ∀ s : DepthState, s.i ≤ n → s.res.length = n →
      ∃ s1, depthLoop n l s = some s1 ∧ s1.i ≤ n ∧ s1.res.length = n := by
  induction l with
  | nil => intro s hi hl; exact ⟨s, rfl, hi, hl⟩
  | cons cur rest ih =>
    intro s hi hl
    by_cases h1 : s.i = n
    · exact ⟨s, by simp [depthLoop, h1], hi, hl⟩
    · by_cases h2 : cur.Price ≠ s.add.Price
      · by_cases h3 : s.add.Price ≠ 0
        · have hlt : s.i < s.res.length := by omega
          simp only [depthLoop, h1, h2, h3, if_true, if_false, ne_eq, not_false_eq_true,
            setAt_of_lt _ _ _ hlt]
          exact ih _ (by simp only; omega) (by simp only [List.length_set]; exact hl)
        · simp only [depthLoop, h1, h2, h3, if_true, if_false, ne_eq, not_false_eq_true]
          exact ih _ hi hl
      · simp only [depthLoop, h1, h2, if_false]
        exact ih _ hi hl

/-- The closure `f` of `Depth` returns, without panic, at most `n`
points. -/
theorem Depth_f_ok (n : Nat) (l : List Order) :
    ∃ r, Depth.f n l = some r ∧ r.length ≤ n := by
  obtain ⟨s1, hs, hi, hl⟩ := depthLoop_ok n l
    { res := List.replicate n ⟨0, 0⟩, i := 0, add := ⟨0, 0⟩ } (Nat.zero_le _)
    (List.length_replicate _ _)
  unfold Depth.f
  rw [hs]
  simp only [depthFinish]
  by_cases h : s1.i ≠ n ∧ s1.add.Amount ≠ 0
  · have hlt : s1.i < s1.res.length := by omega
    simp only [h, and_self, if_true, ne_eq, not_false_eq_true, setAt_of_lt _ _ _ hlt]
    refine ⟨_, rfl, ?_⟩
    split
    · rw [List.length_take, List.length_set]; omega
    · rw [List.length_set]; omega
  · simp only [h, if_false]
    refine ⟨_, rfl, ?_⟩
    split
    · rw [List.length_take]; omega
    · omega

/-- C14 (Depth respects its limit). For every book and every `n >= 0`,
`Depth(n)` returns without an index out of range, each of the two lists
`Asks` and `Bids` has at most `n` points, and the book is as it was. -/
theorem Depth_respects_limit (b : Book) (n : Nat) :
    ∃ d, b.Depth n = some d ∧ d.depth.Asks.length ≤ n ∧ d.depth.Bids.length ≤ n ∧
      d.book = b := by
  obtain ⟨ra, ha, hla⟩ := Depth_f_ok n b.asks
  obtain ⟨rb, hb, hlb⟩ := Depth_f_ok n b.bids
  exact ⟨{ depth := { Asks := ra, Bids := rb }, book := b },
    by simp [Book.Depth, ha, hb], hla, hlb, rfl⟩

/-! ## Depth: zero aggregates -/

/-- C13 (Depth emits only nonzero aggregates), evaluated on a book reached
by three `Trade` calls with fresh orders: the Ask at 20 is consumed exactly
by the Bid at 20 and stays in the ask side with `filled = amount` (the
strict test of `Trade`); `Depth(2)` then emits its price level with the
aggregated quantity 0, because the emission inside the loop tests
`add.Price != 0` and not, as the emission after the loop does, the
amount. -/
theorem Depth_emits_zero_aggregate :
    (∀ o ∈ zeroLevelOrders, o.Fresh) ∧
    ((New.trades zeroLevelOrders).Depth 2).map (fun d => d.depth.Asks) =
      some [⟨20 * Div, 0⟩, ⟨10 * Div, 1 * Div⟩] ∧
    ¬ (∀ d ∈ (New.trades zeroLevelOrders).Depth 2, ∀ pt ∈ d.depth.Asks, pt.Amount ≠ 0) := by
  decide

/-! ## `Mul` -/

/-- C17 (Mul avoids overflow), refuted as stated: for the `int64` scalars
`a = b = 10^18` the product `(a / 10^5) * (b / 10^4) = 10^27` lies outside
the `int64` range, and `Mul` returns the wrapped value
-6930898827444486144. -/
theorem Mul_overflows :
    Rat.InRange 1000000000000000000 ∧
    Int.tdiv 1000000000000000000 100000 * Int.tdiv 1000000000000000000 10000 =
      1000000000000000000000000000 ∧
    ¬ Rat.InRange
      (Int.tdiv 1000000000000000000 100000 * Int.tdiv 1000000000000000000 10000) ∧
    Rat.Mul 1000000000000000000 1000000000000000000 = -6930898827444486144 ∧
    Rat.Mul 1000000000000000000 1000000000000000000 ≠
      Int.tdiv 1000000000000000000 100000 * Int.tdiv 1000000000000000000 10000 := by
  decide

/-- The product of the truncated quotients is bounded by the product of the
operands divided by `10^9`. -/
theorem quotient_product_inRange (a b : Int)
    (h : a.natAbs * b.natAbs < 9223372036854775808 * 1000000000) :
    Rat.InRange (Int.tdiv a 100000 * Int.tdiv b 10000) := by
  have h1 : (Int.tdiv a 100000 * Int.tdiv b 10000).natAbs =
      a.natAbs / 100000 * (b.natAbs / 10000) := by
    rw [Int.natAbs_mul, Int.natAbs_tdiv, Int.natAbs_tdiv]
    rfl
  have h2 : a.natAbs / 100000 * (b.natAbs / 10000) ≤
      a.natAbs * b.natAbs / (100000 * 10000) := Nat.div_mul_div_le _ _ _ _
  have h3 : a.natAbs * b.natAbs / (100000 * 10000) < 9223372036854775808 := by
    rw [Nat.div_lt_iff_lt_mul (by decide)]
    exact h
  have h4 : (Int.tdiv a 100000 * Int.tdiv b 10000).natAbs < 9223372036854775808 := by
    rw [h1]
    exact Nat.lt_of_le_of_lt h2 h3
  unfold Rat.InRange
  omega

/-- C17 as amended. For all scalars `a` and `b`, `Mul(a, b)` equals the
exact integer product `(a / 10^5) * (b / 10^4)`, both divisions truncated
toward zero, if and only if that product lies within the signed 64-bit
range (otherwise it is that product wrapped around); the product lies
within the range whenever `|a| * |b| < 2^63 * 10^9`. -/
theorem Mul_exact_iff (a b : Int) :
    (Rat.Mul a b = Int.tdiv a 100000 * Int.tdiv b 10000 ↔
      Rat.InRange (Int.tdiv a 100000 * Int.tdiv b 10000)) ∧
    (a.natAbs * b.natAbs < 9223372036854775808 * 1000000000 →
      Rat.Mul a b = Int.tdiv a 100000 * Int.tdiv b 10000) := by
  have hiff : Rat.Mul a b = Int.tdiv a 100000 * Int.tdiv b 10000 ↔
      Rat.InRange (Int.tdiv a 100000 * Int.tdiv b 10000) := by
    unfold Rat.Mul
    constructor
    · intro h
      rw [← h]
      exact wrap_inRange _
    · intro h
      exact wrap_of_inRange h
  exact ⟨hiff, fun h => hiff.2 (quotient_product_inRange a b h)⟩

/-- Witness of `Mul_exact_iff`: an amount of 100 at a price of 10. -/
theorem Mul_exact_iff_witness :
    (100 * Div).natAbs * (10 * Div).natAbs < 9223372036854775808 * 1000000000 ∧
    Rat.Mul (100 * Div) (10 * Div) =
      Int.tdiv (100 * Div) 100000 * Int.tdiv (10 * Div) 10000 :=
  ⟨by decide, (Mul_exact_iff (100 * Div) (10 * Div)).2 (by decide)⟩

/-- C19 (Mul is exact on round operands), refuted as stated: for `v = 10^10`
and `w = 1` the product `v * Div` of `RatFromInt(v, 1)` wraps, and
`Mul(RatFromInt(v, 1), RatFromInt(w, 1))` differs from
`RatFromInt(v * w, 1)`. -/
theorem Mul_RatFromInt_overflows :
    RatFromInt 10000000000 1 = some (-8446744073709551616) ∧
    RatFromInt 1 1 = some 1000000000 ∧
    RatFromInt (wrap (10000000000 * 1)) 1 = some (-8446744073709551616) ∧
    Rat.Mul (-8446744073709551616) 1000000000 = -8446744073709500000 ∧
    Rat.Mul (-8446744073709551616) 1000000000 ≠ -8446744073709551616 := by
  decide

/-- C19 as amended. For all scalars `a` divisible by `10^5` and `b`
divisible by `10^4` whose quotient product `(a / 10^5) * (b / 10^4)` lies
within the `int64` range, `Mul(a, b) * 10^9 = a * b`; and for all integers
`v`, `w` for which `v * 10^9` and `w * 10^9` lie within the `int64` range,
`Mul(RatFromInt(v, 1), RatFromInt(w, 1)) = RatFromInt(v * w, 1)`, the
product `v * w` being taken in `int64` arithmetic; so an amount of 100
matched at price 10 yields money 1000. -/
theorem Mul_exact_on_round (a b v w : Int) :
    ((100000 : Int) ∣ a → (10000 : Int) ∣ b →
      Rat.InRange (Int.tdiv a 100000 * Int.tdiv b 10000) →
      Rat.Mul a b * 1000000000 = a * b) ∧
    (Rat.InRange (v * Div) → Rat.InRange (w * Div) →
      ∃ x y, RatFromInt v 1 = some x ∧ RatFromInt w 1 = some y ∧
        RatFromInt (wrap (v * w)) 1 = some (Rat.Mul x y)) ∧
    Rat.Mul (100 * Div) (10 * Div) = 1000 * Div := by
  refine ⟨?_, ?_, by decide⟩
  · rintro ⟨a1, rfl⟩ ⟨b1, rfl⟩ hr
    unfold Rat.Mul
    rw [wrap_of_inRange hr]
    rw [Int.mul_tdiv_cancel_left _ (by decide), Int.mul_tdiv_cancel_left _ (by decide)]
    ring
  · intro hv hw
    have hone : ∀ z : Int, Int.tdiv z 1 = z := fun z => Int.tdiv_one z
    refine ⟨v * Div, w * Div, ?_, ?_, ?_⟩
    · simp only [RatFromInt, one_ne_zero, if_false, hone, wrap_of_inRange hv]
    · simp only [RatFromInt, one_ne_zero, if_false, hone, wrap_of_inRange hw]
    · simp only [RatFromInt, one_ne_zero, if_false, hone]
      congr 1
      have h1 : Int.tdiv (v * Div) 100000 = v * 10000 := by
        have : v * Div = v * 10000 * 100000 := by unfold Div; ring
        rw [this, Int.mul_tdiv_cancel _ (by decide)]
      have h2 : Int.tdiv (w * Div) 10000 = w * 100000 := by
        have : w * Div = w * 100000 * 10000 := by unfold Div; ring
        rw [this, Int.mul_tdiv_cancel _ (by decide)]
      unfold Rat.Mul
      rw [h1, h2]
      have h3 : v * 10000 * (w * 100000) = v * w * 1000000000 := by ring
      rw [h3]
      generalize v * w = z
      rw [wrap_eq_iff]
      unfold wrap Div
      omega

/-- Witness of `Mul_exact_on_round` for the amount 100 and the price 10 of
`TestBidAskChain`. -/
theorem Mul_exact_on_round_witness :
    (100000 : Int) ∣ 100 * Div ∧ (10000 : Int) ∣ 10 * Div ∧
    Rat.InRange (Int.tdiv (100 * Div) 100000 * Int.tdiv (10 * Div) 10000) ∧
    Rat.Mul (100 * Div) (10 * Div) * 1000000000 = 100 * Div * (10 * Div) :=
  ⟨by decide, by decide, by decide,
    (Mul_exact_on_round (100 * Div) (10 * Div) 100 10).1 (by decide) (by decide)
      (by decide)⟩

/-! ## The book is never crossed -/

/-- Behind an entry that fails the crossing test, every entry of a ranked
side fails it. -/
theorem stops_of_ranked (o cur : Order) (rest : List Order)
    (hs : Ranked (oppLess o) (cur :: rest)) (h : stops o cur = true) :
    ∀ x ∈ cur :: rest, stops o x = true := by
  intro x hx
  rcases List.mem_cons.1 hx with rfl | hx
  · exact h
  · have hr := (List.pairwise_cons.1 hs).1 x hx
    unfold oppLess at hr
    unfold stops at h ⊢
    by_cases ht : o.Typ = OrderType.Ask
    · simp [ht, bidsLess] at hr h ⊢
      omega
    · simp [ht, asksLess] at hr h ⊢
      omega

/-- When the loop leaves the incoming order unfilled, every entry left on
the side fails the crossing test against it. -/
theorem tradeLoop_rest_stops (l : List Order) :
    ∀ (o : Order) (last : Int), Rat.InRange o.Amount → Ranked (oppLess o) l →
      (tradeLoop o last l).o.Filled < (tradeLoop o last l).o.Amount →
      ∀ x ∈ (tradeLoop o last l).fill, stops o x = true := by
  induction l with
  | nil => intro o last _ _ _ x hx; simp [tradeLoop] at hx
  | cons cur rest ih =>
    intro o last ha hs hlt
    by_cases h1 : o.Filled < o.Amount
    · cases h2 : stops o cur with
      | true =>
        rw [tradeLoop_stop o last cur rest h2]
        exact stops_of_ranked o cur rest hs h2
      | false =>
        rw [tradeLoop_step o last cur rest h1 h2] at hlt ⊢
        simp only at hlt
        cases h3 : exceeds o cur with
        | true =>
          simp only [if_true]
          intro x hx
          have := ih (o.credit (dialAmount o cur) (Rat.Mul (dialAmount o cur) cur.Price))
            cur.Price (by simpa [Order.credit] using ha)
            (by rw [oppLess_credit]; exact (List.pairwise_cons.1 hs).2) hlt x hx
          rwa [stops_credit] at this
        | false =>
          exfalso
          have hfull := credit_completes o cur (Rat.Mul (dialAmount o cur) cur.Price) ha h3
          have hnot : ¬ ((o.credit (dialAmount o cur)
              (Rat.Mul (dialAmount o cur) cur.Price)).Filled <
              (o.credit (dialAmount o cur) (Rat.Mul (dialAmount o cur) cur.Price)).Amount) := by
            rw [hfull]; simp [Order.credit]
          rw [tradeLoop_full _ _ _ hnot] at hlt
          exact hnot hlt
    · rw [tradeLoop_full o last _ h1] at hlt
      exact absurd hlt h1

/-- One `Trade` call keeps the book uncrossed. -/
theorem Trade_uncrossed (b : Book) (o : Order) (hs : b.Sorted) (hu : b.Uncrossed)
    (ha : Rat.InRange o.Amount) : (b.Trade o).book.Uncrossed := by
  have hsame := tradeLoop_o_sameOrder (b.opposing o) o b.last
  have hstop := tradeLoop_rest_stops (b.opposing o) o b.last ha
    ((Sorted_iff_sides b o).1 hs).2
  unfold Book.Uncrossed at *
  by_cases ht : o.Typ = OrderType.Ask
  · have hopp : b.opposing o = b.bids := by simp [Book.opposing, ht]
    rw [hopp] at hsame hstop
    intro x hx y hy
    simp only [Book.Trade, ht, if_true] at hx hy
    obtain ⟨x0, hx0, hxx⟩ := tradeLoop_fill_mem _ _ _ _ hx
    have hold : ∀ y ∈ b.asks, y.Price < x.Price := by
      intro y hy
      rw [← hxx.2.2.1]
      exact hu x0 hx0 y hy
    split at hy
    · rename_i hrest
      rcases mem_Put _ _ _ _ hy with rfl | hy
      · have := hstop hrest x hx
        simp only [stops, ht, if_true, decide_eq_true_eq] at this
        rw [← hsame.2.2.1]
        omega
      · exact hold y hy
    · exact hold y hy
  · have hopp : b.opposing o = b.asks := by simp [Book.opposing, ht]
    rw [hopp] at hsame hstop
    intro x hx y hy
    simp only [Book.Trade, ht, if_false] at hx hy
    obtain ⟨y0, hy0, hyy⟩ := tradeLoop_fill_mem _ _ _ _ hy
    have hold : ∀ x ∈ b.bids, y.Price < x.Price := by
      intro x hx
      rw [← hyy.2.2.1]
      exact hu x hx y0 hy0
    split at hx
    · rename_i hrest
      rcases mem_Put _ _ _ _ hx with rfl | hx
      · have := hstop hrest y hy
        simp only [stops, ht, if_false, decide_eq_true_eq] at this
        rw [← hsame.2.2.1]
        omega
      · exact hold x hx
    · exact hold x hx

/-- One `Cancel` call keeps the book uncrossed. -/
theorem Cancel_uncrossed (b : Book) (ref : Order) (hu : b.Uncrossed) :
    (b.Cancel ref).book.Uncrossed := by
  have hsub := Cancel_sublist b ref
  intro x hx y hy
  exact hu x (hsub.1.subset hx) y (hsub.2.subset hy)

/-- Every sequence of calls keeps a sorted, uncrossed book sorted and
uncrossed. -/
theorem calls_uncrossed (cs : List Call) :
    ∀ b : Book, b.Sorted → b.Uncrossed → (∀ o, Call.Trade o ∈ cs → o.WF) →
      (b.calls cs).Uncrossed := by
  induction cs with
  | nil => intro b _ hu _; exact hu
  | cons c cs ih =>
    intro b hs hu hw
    have hw1 : ∀ o, Call.Trade o ∈ cs → o.WF := fun o ho => hw o (List.mem_cons_of_mem _ ho)
    cases c with
    | Trade o =>
      exact ih _ (Trade_sorted b o hs)
        (Trade_uncrossed b o hs hu (hw o (List.mem_cons_self _ _)).2.1) hw1
    | Cancel ref => exact ih _ (Cancel_sorted b ref hs) (Cancel_uncrossed b ref hu) hw1

/-- C20 (the book is never crossed). After any sequence of `Trade` and
`Cancel` calls on a new book (the traded orders having `int64` fields) every
order resting on the bid side has a strictly greater price than every order
resting on the ask side; and whenever a further `Trade` leaves its incoming
order resting (`filled < amount` at return), no order remaining on the
opposing side passes the crossing test against it. -/
theorem calls_never_crossed (cs : List Call) (hw : ∀ o, Call.Trade o ∈ cs → o.WF) :
    (∀ x ∈ (New.calls cs).bids, ∀ y ∈ (New.calls cs).asks, y.Price < x.Price) ∧
    (∀ o : Order, o.WF →
      ((New.calls cs).Trade o).o.Filled < ((New.calls cs).Trade o).o.Amount →
      ∀ x ∈ ((New.calls cs).Trade o).book.opposing o, crosses o x = false) := by
  have hu : New.Uncrossed := by
    intro x hx
    simp [New] at hx
  refine ⟨calls_uncrossed cs New New_sorted hu hw, ?_⟩
  intro o ho hlt x hx
  rw [Trade_o] at hlt
  rw [Trade_opposing] at hx
  have hs := calls_sorted cs New New_sorted
  have := tradeLoop_rest_stops ((New.calls cs).opposing o) o (New.calls cs).last ho.2.1
    ((Sorted_iff_sides _ o).1 hs).2 hlt x hx
  rw [crosses_eq_not_stops, this]
  rfl

/-- Witness of `calls_never_crossed` on the calls of `TestBidAskChain`: a
further Ask at 8 rests, and the bid left at 10 does not cross it. -/
theorem calls_never_crossed_witness :
    (∀ o, Call.Trade o ∈ chainCalls → o.WF) ∧ lateAsk.WF ∧
    ((New.calls chainCalls).Trade lateAsk).o.Filled <
      ((New.calls chainCalls).Trade lateAsk).o.Amount ∧
    (New.calls chainCalls).Uncrossed ∧
    ∀ x ∈ ((New.calls chainCalls).Trade lateAsk).book.opposing lateAsk,
      crosses lateAsk x = false :=
  ⟨by simp [chainCalls]; decide, by decide, by decide, by decide,
    (calls_never_crossed chainCalls (by simp [chainCalls]; decide)).2 lateAsk (by decide)
      (by decide)⟩

/-! ## Depth: price levels -/

theorem take_set_succ (res : List DepthPoint) (a : DepthPoint) :
    ∀ i : Nat, i < res.length → (res.set i a).take (i + 1) = res.take i ++ [a] := by
  induction res with
  | nil => intro i hi; simp at hi
  | cons x xs ih =>
    intro i hi
    cases i with
    | zero => simp
    | succ j =>
      simp only [List.length_cons] at hi
      simp only [List.set_cons_succ, List.take_succ_cons, List.cons_append]
      rw [ih j (by omega)]

theorem mem_distinct (ps : List Int) : ∀ x, x ∈ distinct ps → x ∈ ps := by
  induction ps with
  | nil => intro x hx; simp [distinct] at hx
  | cons p ps ih =>
    intro x hx
    simp only [distinct, List.mem_cons, List.mem_filter] at hx
    rcases hx with rfl | ⟨hx, -⟩
    · exact List.mem_cons_self _ _
    · exact List.mem_cons_of_mem _ (ih x hx)

theorem distinct_filter (f : Int → Bool) (ps : List Int) :
    (distinct ps).filter f = distinct (ps.filter f) := by
  induction ps with
  | nil => simp [distinct]
  | cons p ps ih =>
    have hcomm : ((distinct ps).filter (fun q => decide (q ≠ p))).filter f =
        ((distinct ps).filter f).filter (fun q => decide (q ≠ p)) := by
      rw [List.filter_filter, List.filter_filter]
      congr 1
      funext q
      exact Bool.and_comm _ _
    cases hf : f p with
    | true =>
      simp only [distinct, List.filter_cons, hf, if_true]
      rw [hcomm, ih]
    | false =>
      simp only [distinct, List.filter_cons, hf]
      simp only [Bool.false_eq_true, if_false]
      rw [hcomm, ih]
      rw [List.filter_eq_self]
      intro q hq
      have hq1 := mem_distinct _ q hq
      have hfq : f q = true := (List.mem_filter.1 hq1).2
      simp only [ne_eq, decide_eq_true_eq]
      intro hqp
      rw [hqp, hf] at hfq
      cases hfq

theorem levelSum_nil (p : Int) : levelSum [] p = 0 := by
  simp [levelSum]

theorem levelSum_cons (x : Order) (l : List Order) (p : Int) :
    levelSum (x :: l) p = (if x.Price = p then x.remaining else 0) + levelSum l p := by
  unfold levelSum
  by_cases h : x.Price = p
  · simp [List.filter_cons, h]
  · simp [List.filter_cons, h]

theorem levelSum_nonneg (l : List Order) (p : Int) (h : ∀ x ∈ l, 0 ≤ x.remaining) :
    0 ≤ levelSum l p := by
  induction l with
  | nil => simp [levelSum]
  | cons x xs ih =>
    rw [levelSum_cons]
    have h1 := h x (List.mem_cons_self _ _)
    have h2 := ih (fun y hy => h y (List.mem_cons_of_mem _ hy))
    split <;> omega

theorem levelSum_of_not_mem (l : List Order) (p : Int) (h : ∀ x ∈ l, x.Price ≠ p) :
    levelSum l p = 0 := by
  induction l with
  | nil => simp [levelSum]
  | cons x xs ih =>
    rw [levelSum_cons, ih (fun y hy => h y (List.mem_cons_of_mem _ hy))]
    simp [h x (List.mem_cons_self _ _)]

theorem levelSum_filter_ne (l : List Order) (p q : Int) (h : p ≠ q) :
    levelSum (l.filter (fun x => decide (x.Price ≠ q))) p = levelSum l p := by
  unfold levelSum
  rw [List.filter_filter]
  have hfun : (fun a : Order => decide (a.Price = p) && decide (a.Price ≠ q)) =
      (fun x : Order => decide (x.Price = p)) := by
    funext x
    by_cases hx : x.Price = p
    · simp [hx, h]
    · simp [hx]
  rw [hfun]

/-- The price levels of a side: the level of its first entry, followed by
the price levels of the entries at other prices. -/
theorem priceLevels_cons (cur : Order) (rest : List Order) :
    priceLevels (cur :: rest) =
      ⟨cur.Price, levelSum (cur :: rest) cur.Price⟩ ::
        priceLevels (rest.filter (fun x => decide (x.Price ≠ cur.Price))) := by
  unfold priceLevels
  simp only [List.map_cons, distinct]
  congr 1
  have hmap : (rest.filter (fun x => decide (x.Price ≠ cur.Price))).map (fun x => x.Price) =
      (rest.map (fun x => x.Price)).filter (fun q => decide (q ≠ cur.Price)) := by
    rw [List.filter_map]
    rfl
  rw [hmap, ← distinct_filter]
  apply List.map_congr_left
  intro q hq
  have hne : q ≠ cur.Price := by
    have := (List.mem_filter.1 hq).2
    simpa using this
  congr 1
  rw [levelSum_filter_ne _ _ _ hne, levelSum_cons]
  have : ¬ cur.Price = q := fun h => hne h.symm
  simp [this]

theorem depthLoop_at_limit (n : Nat) (l : List Order) (s : DepthState) (h : s.i = n) :
    depthLoop n l s = some s := by
  cases l with
  | nil => rfl
  | cons cur rest => simp [depthLoop, h]

theorem depthFinish_emit (n : Nat) (res : List DepthPoint) (i : Nat) (add : DepthPoint)
    (hi : i < n) (hl : res.length = n) (ha : add.Amount ≠ 0) :
    depthFinish n { res := res, i := i, add := add } = some (res.take i ++ [add]) := by
  have hlt : i < res.length := by omega
  have hne : i ≠ n := by omega
  simp only [depthFinish, hne, ha, ne_eq, not_false_eq_true, and_self, if_true,
    setAt_of_lt _ _ _ hlt]
  simp only [List.length_set]
  rw [← take_set_succ res add i hlt]
  split
  · rfl
  · rw [List.take_of_length_le]
    rw [List.length_set]
    omega

theorem depthFinish_full (n : Nat) (res : List DepthPoint) (add : DepthPoint)
    (hl : res.length = n) :
    depthFinish n { res := res, i := n, add := add } = some res := by
  simp [depthFinish, hl]

/-- Behind the first entry of another price, a ranked side holds no entry of
the price in front of it. -/
theorem no_level_behind (less : Order → Order → Bool) (hp : PriceOrder less)
    (c cur : Order) (rest : List Order) (hr : Ranked less (c :: cur :: rest))
    (hne : cur.Price ≠ c.Price) : ∀ x ∈ cur :: rest, x.Price ≠ c.Price := by
  intro x hx
  rcases List.mem_cons.1 hx with rfl | hx
  · exact hne
  · intro hxc
    unfold Ranked at hr
    rw [List.pairwise_cons, List.pairwise_cons] at hr
    have h1 : less cur c = false := hr.1 cur (List.mem_cons_self _ _)
    have h2 : less x cur = false := hr.2.1 x hx
    have h3 : less c cur = true := by
      cases h : less c cur with
      | true => rfl
      | false => exact absurd (hp.eq_of_not_less cur c h1 h) hne
    have h4 := hp.trans_after c cur x h3 h2
    have h5 := hp.not_less_of_eq c x hxc.symm
    rw [h4] at h5
    cases h5

/-- The remaining quantity of an entry of a side that is ready for `Depth`
is computed without overflow and is positive. -/
theorem remaining_exact (l : List Order) (x : Order) (hx : x ∈ l)
    (hready : ∀ y ∈ l, y.WF ∧ y.Price ≠ 0 ∧ y.Filled < y.Amount)
    (hsum : levelSum l x.Price < 9223372036854775808) :
    Rat.sub x.Amount x.Filled = x.remaining ∧ 0 < x.remaining ∧
      x.remaining < 9223372036854775808 := by
  have hpos : ∀ y ∈ l, 0 ≤ y.remaining := by
    intro y hy
    have := (hready y hy).2.2
    unfold Order.remaining
    omega
  have hle : x.remaining ≤ levelSum l x.Price := by
    clear hsum hready
    induction l with
    | nil => cases hx
    | cons y ys ih =>
      rw [levelSum_cons]
      have hys : 0 ≤ levelSum ys x.Price :=
        levelSum_nonneg ys _ (fun z hz => hpos z (List.mem_cons_of_mem _ hz))
      rcases List.mem_cons.1 hx with rfl | hx
      · simp only [if_true]
        omega
      · have h1 := ih hx (fun z hz => hpos z (List.mem_cons_of_mem _ hz))
        have h2 := hpos y (List.mem_cons_self _ _)
        split <;> omega
  have hlt := (hready x hx).2.2
  have hr : 0 < x.remaining := by unfold Order.remaining; omega
  refine ⟨?_, hr, by omega⟩
  unfold Rat.sub
  apply wrap_of_inRange
  unfold Rat.InRange
  unfold Order.remaining at hle hr
  omega

/-- The loop of `Depth` with a pending aggregate at the price of `c`,
followed by the closing statements: the points emitted so far, then the
pending level completed by the entries of its price, then the price levels
of the other entries, cut at `n` points in all. -/
theorem depthLoop_levels (n : Nat) (less : Order → Order → Bool) (hp : PriceOrder less)
    (l : List Order) :
    ∀ (res : List DepthPoint) (i : Nat) (A : Int) (c : Order),
      i < n → res.length = n → c.Price ≠ 0 → 0 < A → Ranked less (c :: l) →
      (∀ x ∈ l, x.WF ∧ x.Price ≠ 0 ∧ x.Filled < x.Amount) →
      (∀ x ∈ l, levelSum l x.Price < 9223372036854775808) →
      A + levelSum l c.Price < 9223372036854775808 →
      ∃ s1, depthLoop n l { res := res, i := i, add := ⟨c.Price, A⟩ } = some s1 ∧
        depthFinish n s1 = some (res.take i ++
          (⟨c.Price, A + levelSum l c.Price⟩ ::
            priceLevels (l.filter (fun x => decide (x.Price ≠ c.Price)))).take (n - i)) := by
  induction l with
  | nil =>
    intro res i A c hi hl hc hA _ _ _ _
    refine ⟨_, rfl, ?_⟩
    rw [depthFinish_emit n res i _ hi hl (by simp only; omega)]
    have hn : n - i = (n - i - 1) + 1 := by omega
    rw [hn, List.take_succ_cons]
    simp [levelSum_nil, priceLevels, distinct]
  | cons cur rest ih =>
    intro res i A c hi hl hc hA hr hready hsum hA2
    have hne : ¬ i = n := by omega
    have hcur := hready cur (List.mem_cons_self _ _)
    have hrem := remaining_exact (cur :: rest) cur (List.mem_cons_self _ _) hready
      (hsum cur (List.mem_cons_self _ _))
    have hready1 : ∀ x ∈ rest, x.WF ∧ x.Price ≠ 0 ∧ x.Filled < x.Amount :=
      fun x hx => hready x (List.mem_cons_of_mem _ hx)
    have hpos1 : ∀ x ∈ rest, 0 ≤ x.remaining := by
      intro x hx
      have := (hready1 x hx).2.2
      unfold Order.remaining
      omega
    have hsum1 : ∀ x ∈ rest, levelSum rest x.Price < 9223372036854775808 := by
      intro x hx
      have := hsum x (List.mem_cons_of_mem _ hx)
      rw [levelSum_cons] at this
      have h0 := hrem.2.1
      split at this <;> omega
    have hl2 : levelSum (cur :: rest) cur.Price = cur.remaining + levelSum rest cur.Price := by
      rw [levelSum_cons]
      simp
    have hlt : i < res.length := by omega
    by_cases hsame : cur.Price = c.Price
    · have hl3 : levelSum (cur :: rest) c.Price = cur.remaining + levelSum rest c.Price := by
        rw [← hsame]
        exact hl2
      have hnn : 0 ≤ levelSum rest c.Price := levelSum_nonneg rest _ hpos1
      have hadd : Rat.add A (Rat.sub cur.Amount cur.Filled) = A + cur.remaining := by
        rw [hrem.1]
        unfold Rat.add
        apply wrap_of_inRange
        unfold Rat.InRange
        have := hrem.2.1
        omega
      have hstep : depthLoop n (cur :: rest) { res := res, i := i, add := ⟨c.Price, A⟩ } =
          depthLoop n rest { res := res, i := i, add := ⟨c.Price, A + cur.remaining⟩ } := by
        simp only [depthLoop, hne, hsame, if_false, ne_eq, not_true_eq_false, hadd]
      obtain ⟨s1, h1, h2⟩ := ih res i (A + cur.remaining) c hi hl hc
        (by have := hrem.2.1; omega)
        (List.Pairwise.sublist (List.Sublist.cons₂ c (List.sublist_cons_self cur rest)) hr)
        hready1 hsum1 (by omega)
      refine ⟨s1, by rw [hstep]; exact h1, ?_⟩
      rw [h2]
      have hfilt : (cur :: rest).filter (fun x => decide (x.Price ≠ c.Price)) =
          rest.filter (fun x => decide (x.Price ≠ c.Price)) := by
        simp [List.filter_cons, hsame]
      rw [hfilt, hl3]
      have hassoc : A + cur.remaining + levelSum rest c.Price =
          A + (cur.remaining + levelSum rest c.Price) := by omega
      rw [hassoc]
    · have hnone := no_level_behind less hp c cur rest hr hsame
      have hl0 : levelSum (cur :: rest) c.Price = 0 := levelSum_of_not_mem _ _ hnone
      have hfilt : (cur :: rest).filter (fun x => decide (x.Price ≠ c.Price)) = cur :: rest := by
        rw [List.filter_eq_self]
        intro x hx
        simpa using hnone x hx
      have hadd : Rat.add 0 (Rat.sub cur.Amount cur.Filled) = cur.remaining := by
        rw [hrem.1]
        unfold Rat.add
        rw [Int.zero_add]
        apply wrap_of_inRange
        unfold Rat.InRange
        have := hrem.2.1
        have := hrem.2.2
        omega
      have hstep : depthLoop n (cur :: rest) { res := res, i := i, add := ⟨c.Price, A⟩ } =
          depthLoop n rest
            { res := res.set i ⟨c.Price, A⟩, i := i + 1, add := ⟨cur.Price, cur.remaining⟩ } := by
        simp only [depthLoop, hne, hsame, hc, if_true, if_false, ne_eq, not_false_eq_true,
          setAt_of_lt _ _ _ hlt, hadd]
      have hn : n - i = (n - (i + 1)) + 1 := by omega
      rw [hfilt, hl0, priceLevels_cons, hl2, hstep, hn, List.take_succ_cons, Int.add_zero]
      by_cases hlim : i + 1 = n
      · refine ⟨_, depthLoop_at_limit n rest _ hlim, ?_⟩
        subst hlim
        rw [depthFinish_full (i + 1) _ _ (by rw [List.length_set]; exact hl)]
        have hfull : res.set i ⟨c.Price, A⟩ = (res.set i ⟨c.Price, A⟩).take (i + 1) := by
          rw [List.take_of_length_le]
          rw [List.length_set]
          omega
        rw [hfull, take_set_succ res _ i hlt]
        simp
      · obtain ⟨s1, h1, h2⟩ := ih (res.set i ⟨c.Price, A⟩) (i + 1) cur.remaining cur
          (by omega) (by rw [List.length_set]; exact hl) hcur.2.1 hrem.2.1
          (List.pairwise_cons.1 hr).2 hready1 hsum1
          (by have := hsum cur (List.mem_cons_self _ _); rw [hl2] at this; exact this)
        refine ⟨s1, h1, ?_⟩
        rw [h2, take_set_succ res _ i hlt]
        simp

/-- On a ranked side that is ready for `Depth`, the closure `f` returns the
first `n` price levels. -/
theorem Depth_f_levels (n : Nat) (less : Order → Order → Bool) (hp : PriceOrder less)
    (l : List Order) (hr : Ranked less l) (hready : DepthReady l) :
    Depth.f n l = some ((priceLevels l).take n) := by
  unfold Depth.f
  cases l with
  | nil =>
    simp only [depthLoop]
    simp [depthFinish, priceLevels, distinct]
  | cons cur rest =>
    by_cases hn : n = 0
    · subst hn
      rw [depthLoop_at_limit 0 _ _ rfl]
      simp [depthFinish]
    · have hcur := hready.1 cur (List.mem_cons_self _ _)
      have hrem := remaining_exact (cur :: rest) cur (List.mem_cons_self _ _) hready.1
        (hready.2 cur (List.mem_cons_self _ _))
      have hpos1 : ∀ x ∈ rest, 0 ≤ x.remaining := by
        intro x hx
        have := (hready.1 x (List.mem_cons_of_mem _ hx)).2.2
        unfold Order.remaining
        omega
      have hsum1 : ∀ x ∈ rest, levelSum rest x.Price < 9223372036854775808 := by
        intro x hx
        have := hready.2 x (List.mem_cons_of_mem _ hx)
        rw [levelSum_cons] at this
        have h0 := hrem.2.1
        split at this <;> omega
      have hl2 : levelSum (cur :: rest) cur.Price =
          cur.remaining + levelSum rest cur.Price := by
        rw [levelSum_cons]
        simp
      have hadd : Rat.add 0 (Rat.sub cur.Amount cur.Filled) = cur.remaining := by
        rw [hrem.1]
        unfold Rat.add
        rw [Int.zero_add]
        apply wrap_of_inRange
        unfold Rat.InRange
        have := hrem.2.1
        have := hrem.2.2
        omega
      have hstep : depthLoop n (cur :: rest)
          { res := List.replicate n ⟨0, 0⟩, i := 0, add := ⟨0, 0⟩ } =
          depthLoop n rest
            { res := List.replicate n ⟨0, 0⟩, i := 0, add := ⟨cur.Price, cur.remaining⟩ } := by
        have h0 : ¬ (0 = n) := fun h => hn h.symm
        simp only [depthLoop, h0, hcur.2.1, if_true, if_false, ne_eq, not_false_eq_true,
          not_true_eq_false, hadd]
      obtain ⟨s1, h1, h2⟩ := depthLoop_levels n less hp rest (List.replicate n ⟨0, 0⟩) 0
        cur.remaining cur (by omega) (List.length_replicate _ _) hcur.2.1 hrem.2.1 hr
        (fun x hx => hready.1 x (List.mem_cons_of_mem _ hx)) hsum1
        (by have := hready.2 cur (List.mem_cons_self _ _); rw [hl2] at this; exact this)
      rw [hstep, h1]
      simp only
      rw [h2, priceLevels_cons, hl2]
      simp

/-- C12 (Depth aggregates price levels exactly), refuted as stated: two
resting bids at price 1 with the amount `2^62` each are in ranking order,
have a nonzero price and `filled < amount`, but `Depth(1)` reports their
level with the quantity `-2^63`, the wrapped sum, and not with the sum
`2^63` of `amount - filled`. -/
theorem Depth_level_sum_overflows :
    (∀ o ∈ heavyBids, o.Fresh) ∧
    (New.trades heavyBids).Sorted ∧
    (∀ x ∈ (New.trades heavyBids).bids, x.WF ∧ x.Price ≠ 0 ∧ x.Filled < x.Amount) ∧
    (New.trades heavyBids).asks = [] ∧
    ((New.trades heavyBids).Depth 1).map (fun d => d.depth.Bids) =
      some [⟨1 * Div, -9223372036854775808⟩] ∧
    priceLevels (New.trades heavyBids).bids = [⟨1 * Div, 9223372036854775808⟩] ∧
    ((New.trades heavyBids).Depth 1).map (fun d => d.depth.Bids) ≠
      some ((priceLevels (New.trades heavyBids).bids).take 1) := by
  decide

/-- C12 as amended. For every `n >= 0` and every book whose sides are in
ranking order, whose resting orders have `int64` fields, nonzero prices and
`filled < amount`, and in which the remaining quantities of each price level
sum to less than `2^63`, `Depth(n)` returns for each side the first
`min(n, k)` price levels in the ranking order of the side (`k` being the
number of distinct resting prices of the side), each as a point whose
quantity is the sum of `amount - filled` over all resting orders of the side
at that exact price; a level beyond the limit is left out entirely. -/
theorem Depth_price_levels (b : Book) (n : Nat) (hs : b.Sorted)
    (hb : DepthReady b.bids) (ha : DepthReady b.asks) :
    ∃ d, b.Depth n = some d ∧
      d.depth.Bids = (priceLevels b.bids).take n ∧
      d.depth.Asks = (priceLevels b.asks).take n ∧
      d.depth.Bids.length = min n (distinct (b.bids.map (fun x => x.Price))).length ∧
      d.depth.Asks.length = min n (distinct (b.asks.map (fun x => x.Price))).length := by
  have h1 := Depth_f_levels n bidsLess bidsLess_priceOrder b.bids hs.1 hb
  have h2 := Depth_f_levels n asksLess asksLess_priceOrder b.asks hs.2 ha
  refine ⟨{ depth := { Asks := (priceLevels b.asks).take n,
                       Bids := (priceLevels b.bids).take n }, book := b },
    by simp [Book.Depth, h1, h2], rfl, rfl, ?_, ?_⟩
  · simp [priceLevels]
  · simp [priceLevels]

/-- Witness of `Depth_price_levels` on the book of `TestDepth` with a second
bid at 10: `Depth(2)` returns the levels 10 (quantity 150) and 20 of the
bids and the levels 9 and 8 of the asks. -/
theorem Depth_price_levels_witness :
    depthBook.Sorted ∧ DepthReady depthBook.bids ∧ DepthReady depthBook.asks ∧
    (depthBook.Depth 2).map (fun d => d.depth) =
      some { Asks := [⟨9 * Div, 99 * Div⟩, ⟨8 * Div, 98 * Div⟩],
             Bids := [⟨10 * Div, 150 * Div⟩, ⟨20 * Div, 101 * Div⟩] } ∧
    ∃ d, depthBook.Depth 2 = some d ∧
      d.depth.Bids = (priceLevels depthBook.bids).take 2 ∧
      d.depth.Asks = (priceLevels depthBook.asks).take 2 ∧
      d.depth.Bids.length = min 2 (distinct (depthBook.bids.map (fun x => x.Price))).length ∧
      d.depth.Asks.length = min 2 (distinct (depthBook.asks.map (fun x => x.Price))).length :=
  ⟨by decide, by decide, by decide, by decide,
    Depth_price_levels depthBook 2 (by decide) (by decide) (by decide)⟩

end book
